import Mathlib

set_option maxHeartbeats 1000000

set_option maxRecDepth 100000

set_option allowUnsafeReducibility true

attribute [local semireducible] Rat.sub Rat.add Rat.mul Rat.div Rat.inv

/-!
Shallow embedding of `pysal/cg/locators.py`: the interval tree and the
bucket grid, together with proofs of the specification's testable
properties.  Scalar coordinates are modelled as rationals; interval
payloads and grid items are a type parameter.
-/

variable {α : Type}

/-- Binary tree of interval-tree nodes; `nil` models Python's `None` child
(`IntervalTree.Node`, locators.py lines 62-72). -/
inductive ITree (α : Type) where
  | nil : ITree α
  | node (val : ℚ) (left_list : List (ℚ × ℚ × α)) (right_list : List (ℚ × ℚ × α))
      (left_node : ITree α) (right_node : ITree α) : ITree α
deriving DecidableEq

/-- `IntervalTree.Node.query` (locators.py lines 74-83): scan the node-local
sorted list, stopping at the first entry that fails the bound test, and
return the scanned payloads. -/
def ITree.query : ITree α → ℚ → List α
  | .nil, _ => []
  | .node val ll rl _ _, q =>
    if q < val then (ll.takeWhile (fun i => decide (i.1 ≤ q))).map (fun i => i.2.2)
    else (rl.takeWhile (fun i => decide (q ≤ i.2.1))).map (fun i => i.2.2)

/-- `IntervalTree._query_points` (locators.py lines 196-205): iterative descent
collecting each visited node's local query results. -/
def ITree.queryPoints : ITree α → ℚ → List α
  | .nil, _ => []
  | .node val ll rl l r, q =>
    (ITree.node val ll rl l r).query q ++
      (if q < val then l.queryPoints q else r.queryPoints q)

/-- `IntervalTree._query_range` (locators.py lines 186-194). -/
def ITree.queryRange : ITree α → ℚ × ℚ → List α
  | .nil, _ => []
  | .node val ll rl l r, q =>
    if val < q.1 then r.queryRange q ++ (ITree.node val ll rl l r).query q.1
    else if q.2 < val then l.queryRange q ++ (ITree.node val ll rl l r).query q.2
    else (ITree.node val ll rl l r).query val ++ l.queryRange q ++ r.queryRange q

/-- One fuel-indexed step of the `binary_search` while-loop inside
`IntervalTree._recursive_build` (locators.py lines 217-226); `r - l` shrinks
every iteration, so `list.length` rounds of fuel suffice. -/
def bsLoop (lst : List ℚ) (q : ℚ) : ℕ → ℕ → ℕ → ℕ
  | 0, l, _ => l
  | fuel + 1, l, r =>
    if l < r then
      if lst.getD ((l + r) / 2) 0 < q then bsLoop lst q fuel ((l + r) / 2 + 1) r
      else bsLoop lst q fuel l ((l + r) / 2)
    else l

/-- `binary_search(list, q)` from `IntervalTree._recursive_build`: the returned
index of the first element that is not `< q`. -/
def binarySearch (lst : List ℚ) (q : ℚ) : ℕ := bsLoop lst q lst.length 0 lst.length

/-- Comparator `lambda a, b: sign(a[0] - b[0])` (locators.py line 239):
ascending order by lower bound. -/
def byLower (a b : (ℚ × ℚ × α)) : Prop := a.1 ≤ b.1

/-- Comparator `lambda a, b: sign(b[1] - a[1])` (locators.py line 241):
descending order by upper bound. -/
def byUpperDesc (a b : (ℚ × ℚ × α)) : Prop := b.2.1 ≤ a.2.1

instance : DecidableRel (@byLower α) :=
  fun a b => inferInstanceAs (Decidable (a.1 ≤ b.1))

instance : DecidableRel (@byUpperDesc α) :=
  fun a b => inferInstanceAs (Decidable (b.2.1 ≤ a.2.1))

instance : IsTotal (ℚ × ℚ × α) byLower := ⟨fun a b => le_total a.1 b.1⟩

instance : IsTrans (ℚ × ℚ × α) byLower := ⟨fun _ _ _ h h' => le_trans h h'⟩

instance : IsTotal (ℚ × ℚ × α) byUpperDesc := ⟨fun a b => le_total b.2.1 a.2.1⟩

instance : IsTrans (ℚ × ℚ × α) byUpperDesc := ⟨fun _ _ _ h h' => le_trans h' h⟩

/-- `list(set(lowers + uppers))` followed by `.sort()` (locators.py lines
160-161 and 242-243): the sorted, deduplicated endpoint list. -/
def epsOf (intervals : List (ℚ × ℚ × α)) : List ℚ :=
  List.insertionSort (· ≤ ·)
    ((intervals.map (fun i => i.1) ++ intervals.map (fun i => i.2.1)).dedup)

/-- `IntervalTree._recursive_build` (locators.py lines 208-250), indexed by
fuel: called directly with an endpoint list unrelated to its intervals (which
only an invalid batch can produce) the source recursion does not terminate,
so the embedding consumes one unit of fuel per call and `IntervalTree.build`
supplies enough fuel for every batch it accepts. -/
def recursiveBuild : ℕ → List (ℚ × ℚ × α) → List ℚ → ITree α
  | 0, _, _ => .nil
  | fuel + 1, intervals, eps =>
    if eps = [] then .nil
    else
      let median := eps.getD (eps.length / 2) 0
      let hit_is := intervals.filter (fun i => decide (i.1 ≤ median ∧ median ≤ i.2.1))
      let rem_is := intervals.filter (fun i => !decide (i.1 ≤ median ∧ median ≤ i.2.1))
      let eps' := epsOf intervals
      let bp := binarySearch eps' median
      ITree.node median (List.insertionSort byLower hit_is)
        (List.insertionSort byUpperDesc hit_is)
        (recursiveBuild fuel rem_is (eps'.take bp))
        (recursiveBuild fuel rem_is (eps'.drop bp))

instance {ε β : Type} [DecidableEq ε] [DecidableEq β] : DecidableEq (Except ε β) :=
  fun x y =>
    match x, y with
    | .ok a, .ok b => if h : a = b then .isTrue (by rw [h]) else .isFalse (by simp [h])
    | .error a, .error b => if h : a = b then .isTrue (by rw [h]) else .isFalse (by simp [h])
    | .ok _, .error _ => .isFalse (by simp)
    | .error _, .ok _ => .isFalse (by simp)

/-- `IntervalTree._build` (locators.py lines 148-162): reject the whole batch
when any interval has `lower > upper` (`bad_is != []`), otherwise build
recursively from the sorted deduplicated endpoint list.  Exceptions are
modelled with `Except`. -/
def IntervalTree.build (intervals : List (ℚ × ℚ × α)) : Except String (ITree α) :=
  match intervals.filter (fun i => decide (i.2.1 < i.1)) with
  | _ :: _ => .error "InvalidInterval"
  | [] => .ok (recursiveBuild (2 * intervals.length + 1) intervals (epsOf intervals))

example :
    IntervalTree.build [((-1 : ℚ), (2 : ℚ), 0), (5, 9, 1), (3, 6, 2)] =
      .ok (recursiveBuild 7 [((-1 : ℚ), (2 : ℚ), 0), (5, 9, 1), (3, 6, 2)]
        [-1, 2, 3, 5, 6, 9]) := by decide

example :
    (recursiveBuild 7 [((-1 : ℚ), (2 : ℚ), 0), (5, 9, 1), (3, 6, 2)]
      [-1, 2, 3, 5, 6, 9]).queryPoints 1 = [0] := by decide

example :
    (recursiveBuild 7 [((-1 : ℚ), (2 : ℚ), 0), (5, 9, 1), (3, 6, 2)]
      [-1, 2, 3, 5, 6, 9]).queryRange (7, 14) = [1] := by decide

/-! ### List utilities for the interval-tree proofs -/

theorem getD_middle_mem {l : List ℚ} (h : l ≠ []) : l.getD (l.length / 2) 0 ∈ l := by
  have hlt : l.length / 2 < l.length := Nat.div_lt_self (List.length_pos.mpr h) one_lt_two
  rw [List.getD_eq_getElem l 0 hlt]
  exact List.getElem_mem hlt

theorem mem_takeWhile_of_sorted {β : Type} {r : β → β → Prop} {p : β → Bool}
    (hp : ∀ a b, r a b → p b = true → p a = true) :
    ∀ {l : List β}, l.Sorted r → ∀ {x}, x ∈ l → p x = true → x ∈ l.takeWhile p := by
  intro l
  induction l with
  | nil => intro _ x hx; cases hx
  | cons a t ih =>
    intro hl x hx hpx
    rcases List.mem_cons.mp hx with rfl | hxt
    · simp [List.takeWhile_cons, hpx]
    · have hpa : p a = true := hp a x ((List.sorted_cons.mp hl).1 x hxt) hpx
      simp only [List.takeWhile_cons, hpa, if_true]
      exact List.mem_cons_of_mem _ (ih (List.sorted_cons.mp hl).2 hxt hpx)

theorem sorted_getD_mono {lst : List ℚ} (hs : lst.Sorted (· ≤ ·)) {i j : ℕ}
    (hij : i ≤ j) (hj : j < lst.length) : lst.getD i 0 ≤ lst.getD j 0 := by
  rcases eq_or_lt_of_le hij with rfl | hlt
  · exact le_refl _
  · have hi : i < lst.length := lt_of_le_of_lt hij hj
    have := (List.pairwise_iff_getElem.mp hs) i j hi hj hlt
    rwa [List.getD_eq_getElem lst 0 hi, List.getD_eq_getElem lst 0 hj]

theorem takeWhile_lt_length_le (lst : List ℚ) (q : ℚ) :
    (lst.takeWhile (fun e => decide (e < q))).length ≤ lst.length :=
  ((List.takeWhile_prefix _).sublist).length_le

theorem getD_takeWhile_lt (lst : List ℚ) (q : ℚ) :
    ∀ i, i < (lst.takeWhile (fun e => decide (e < q))).length → lst.getD i 0 < q := by
  induction lst with
  | nil => simp
  | cons a t ih =>
    intro i hi
    by_cases ha : a < q
    · simp only [List.takeWhile_cons, decide_eq_true ha, if_true, List.length_cons] at hi
      cases i with
      | zero => simpa using ha
      | succ j => exact ih j (by omega)
    · simp [List.takeWhile_cons, ha] at hi

theorem getD_takeWhile_lt_end (lst : List ℚ) (q : ℚ)
    (h : (lst.takeWhile (fun e => decide (e < q))).length < lst.length) :
    ¬ lst.getD (lst.takeWhile (fun e => decide (e < q))).length 0 < q := by
  induction lst with
  | nil => simp at h
  | cons a t ih =>
    by_cases ha : a < q
    · simp only [List.takeWhile_cons, decide_eq_true ha, if_true, List.length_cons] at h ⊢
      exact ih (by omega)
    · simp [List.takeWhile_cons, ha]

theorem getD_ge_of_takeWhile_le {lst : List ℚ} (hs : lst.Sorted (· ≤ ·)) (q : ℚ) {m : ℕ}
    (hk : (lst.takeWhile (fun e => decide (e < q))).length ≤ m) (hm : m < lst.length) :
    ¬ lst.getD m 0 < q := by
  have hkl : (lst.takeWhile (fun e => decide (e < q))).length < lst.length :=
    lt_of_le_of_lt hk hm
  have h1 := getD_takeWhile_lt_end lst q hkl
  have h2 := sorted_getD_mono hs hk hm
  exact fun hc => h1 (lt_of_le_of_lt h2 hc)

theorem bsLoop_eq (lst : List ℚ) (q : ℚ) (hs : lst.Sorted (· ≤ ·)) :
    ∀ fuel l r, l ≤ (lst.takeWhile (fun e => decide (e < q))).length →
      (lst.takeWhile (fun e => decide (e < q))).length ≤ r → r ≤ lst.length →
      r - l ≤ fuel →
      bsLoop lst q fuel l r = (lst.takeWhile (fun e => decide (e < q))).length := by
  intro fuel
  induction fuel with
  | zero => intro l r h1 h2 h3 h4; simp only [bsLoop]; omega
  | succ n ih =>
    intro l r h1 h2 h3 h4
    by_cases hlr : l < r
    · rw [bsLoop, if_pos hlr]
      by_cases hm : lst.getD ((l + r) / 2) 0 < q
      · rw [if_pos hm]
        have hmk : (l + r) / 2 < (lst.takeWhile (fun e => decide (e < q))).length := by
          by_contra hc
          exact getD_ge_of_takeWhile_le hs q (by omega) (by omega) hm
        exact ih _ _ (by omega) h2 h3 (by omega)
      · rw [if_neg hm]
        have hkm : (lst.takeWhile (fun e => decide (e < q))).length ≤ (l + r) / 2 := by
          by_contra hc
          exact hm (getD_takeWhile_lt lst q _ (by omega))
        exact ih _ _ h1 hkm (by omega) (by omega)
    · rw [bsLoop, if_neg hlr]; omega

theorem binarySearch_eq (lst : List ℚ) (q : ℚ) (hs : lst.Sorted (· ≤ ·)) :
    binarySearch lst q = (lst.takeWhile (fun e => decide (e < q))).length :=
  bsLoop_eq lst q hs lst.length 0 lst.length (Nat.zero_le _)
    (takeWhile_lt_length_le lst q) (le_refl _) (by omega)

theorem sorted_takeWhile_lt_eq_filter {lst : List ℚ} (q : ℚ) (hs : lst.Sorted (· ≤ ·)) :
    lst.takeWhile (fun e => decide (e < q)) = lst.filter (fun e => decide (e < q)) := by
  induction lst with
  | nil => rfl
  | cons a t ih =>
    rcases List.sorted_cons.mp hs with ⟨hat, hst⟩
    by_cases ha : a < q
    · simp only [List.takeWhile_cons, List.filter_cons, decide_eq_true ha, if_true, ih hst]
    · simp only [List.takeWhile_cons, List.filter_cons, decide_eq_false ha, Bool.false_eq_true,
        if_false, cond_false]
      refine (List.filter_eq_nil_iff.mpr ?_).symm
      intro e he
      simp only [decide_eq_true_eq]
      exact fun hc => ha (lt_of_le_of_lt (hat e he) hc)

theorem sorted_dropWhile_lt_eq_filter {lst : List ℚ} (q : ℚ) (hs : lst.Sorted (· ≤ ·)) :
    lst.dropWhile (fun e => decide (e < q)) = lst.filter (fun e => decide (q ≤ e)) := by
  induction lst with
  | nil => rfl
  | cons a t ih =>
    rcases List.sorted_cons.mp hs with ⟨hat, hst⟩
    by_cases ha : a < q
    · have hqa : ¬ q ≤ a := not_le.mpr ha
      simp [List.dropWhile_cons, List.filter_cons, ha, hqa, ih hst]
    · have haq : q ≤ a := not_lt.mp ha
      simp only [List.dropWhile_cons, List.filter_cons, decide_eq_false ha, Bool.false_eq_true,
        if_false, decide_eq_true haq, cond_true]
      refine congrArg _ ((List.filter_eq_self.mpr ?_).symm)
      intro e he
      simp only [decide_eq_true_eq]
      exact le_trans haq (hat e he)

theorem dropWhile_eq_drop_len (p : ℚ → Bool) :
    ∀ l : List ℚ, l.dropWhile p = l.drop (l.takeWhile p).length
  | [] => rfl
  | a :: t => by
    by_cases h : p a <;>
      simp [List.dropWhile_cons, List.takeWhile_cons, h, dropWhile_eq_drop_len p t]

theorem take_binarySearch {lst : List ℚ} (q : ℚ) (hs : lst.Sorted (· ≤ ·)) :
    lst.take (binarySearch lst q) = lst.filter (fun e => decide (e < q)) := by
  rw [binarySearch_eq lst q hs, ← sorted_takeWhile_lt_eq_filter q hs]
  exact (List.prefix_iff_eq_take.mp (List.takeWhile_prefix _)).symm

theorem drop_binarySearch {lst : List ℚ} (q : ℚ) (hs : lst.Sorted (· ≤ ·)) :
    lst.drop (binarySearch lst q) = lst.filter (fun e => decide (q ≤ e)) := by
  rw [binarySearch_eq lst q hs, ← sorted_dropWhile_lt_eq_filter q hs]
  exact (dropWhile_eq_drop_len _ lst).symm

/-! ### Endpoint bookkeeping and the fuel measure -/

/-- All lower and upper bounds of a batch,
`[i[0] for i in intervals] + [i[1] for i in intervals]`. -/
def endpointList (intervals : List (ℚ × ℚ × α)) : List ℚ :=
  intervals.map (fun i => i.1) ++ intervals.map (fun i => i.2.1)

theorem epsOf_sorted (intervals : List (ℚ × ℚ × α)) : (epsOf intervals).Sorted (· ≤ ·) :=
  List.sorted_insertionSort _ _

theorem mem_epsOf {intervals : List (ℚ × ℚ × α)} {x : ℚ} :
    x ∈ epsOf intervals ↔ x ∈ endpointList intervals := by
  simp [epsOf, endpointList]

/-- Enough fuel for one call of `recursiveBuild`: every recursive call strictly
decreases this measure as long as the batch is valid. -/
def buildFuel (intervals : List (ℚ × ℚ × α)) (eps : List ℚ) : ℕ :=
  2 * intervals.length + (if ∀ e ∈ eps, e ∈ endpointList intervals then 0 else 1)

theorem buildFuel_child_lt {intervals : List (ℚ × ℚ × α)} {eps ceps : List ℚ}
    (hval : ∀ j ∈ intervals, j.1 ≤ j.2.1) (hne : eps ≠ [])
    (hc : ∀ e ∈ ceps, e ∈ endpointList intervals) :
    buildFuel
        (intervals.filter (fun i =>
          !decide (i.1 ≤ eps.getD (eps.length / 2) 0 ∧ eps.getD (eps.length / 2) 0 ≤ i.2.1)))
        ceps
      < buildFuel intervals eps := by
  by_cases hhit : ∃ j ∈ intervals,
      j.1 ≤ eps.getD (eps.length / 2) 0 ∧ eps.getD (eps.length / 2) 0 ≤ j.2.1
  · have hlen : (intervals.filter (fun i =>
        !decide (i.1 ≤ eps.getD (eps.length / 2) 0 ∧
          eps.getD (eps.length / 2) 0 ≤ i.2.1))).length < intervals.length := by
      obtain ⟨j, hj, hcen⟩ := hhit
      refine List.length_filter_lt_length_iff_exists.mpr ⟨j, hj, ?_⟩
      intro hcon
      rw [Bool.not_eq_true', decide_eq_false_iff_not] at hcon
      exact hcon hcen
    unfold buildFuel
    have h1 : (if ∀ e ∈ ceps, e ∈ endpointList (intervals.filter (fun i =>
        !decide (i.1 ≤ eps.getD (eps.length / 2) 0 ∧
          eps.getD (eps.length / 2) 0 ≤ i.2.1))) then 0 else 1) ≤ 1 := by
      split <;> omega
    have h2 : (0 : ℕ) ≤ (if ∀ e ∈ eps, e ∈ endpointList intervals then 0 else 1) := by
      omega
    omega
  · have hrem : intervals.filter (fun i =>
        !decide (i.1 ≤ eps.getD (eps.length / 2) 0 ∧
          eps.getD (eps.length / 2) 0 ≤ i.2.1)) = intervals := by
      refine List.filter_eq_self.mpr ?_
      intro a ha
      simp only [Bool.not_eq_true', decide_eq_false_iff_not]
      exact fun hcon => hhit ⟨a, ha, hcon⟩
    have hflag : ¬ ∀ e ∈ eps, e ∈ endpointList intervals := by
      intro hall
      have hmem := hall _ (getD_middle_mem hne)
      rcases List.mem_append.mp hmem with hmem | hmem
      · obtain ⟨j, hj, hjv⟩ := List.mem_map.mp hmem
        exact hhit ⟨j, hj, le_of_eq hjv, hjv ▸ hval j hj⟩
      · obtain ⟨j, hj, hjv⟩ := List.mem_map.mp hmem
        exact hhit ⟨j, hj, hjv ▸ hval j hj, le_of_eq hjv.symm⟩
    rw [hrem]
    unfold buildFuel
    rw [if_pos hc, if_neg hflag]
    omega

theorem recursiveBuild_node (fuel : ℕ) (intervals : List (ℚ × ℚ × α)) (eps : List ℚ)
    (hne : eps ≠ []) :
    recursiveBuild (fuel + 1) intervals eps =
      ITree.node (eps.getD (eps.length / 2) 0)
        (List.insertionSort byLower (intervals.filter (fun i =>
          decide (i.1 ≤ eps.getD (eps.length / 2) 0 ∧ eps.getD (eps.length / 2) 0 ≤ i.2.1))))
        (List.insertionSort byUpperDesc (intervals.filter (fun i =>
          decide (i.1 ≤ eps.getD (eps.length / 2) 0 ∧ eps.getD (eps.length / 2) 0 ≤ i.2.1))))
        (recursiveBuild fuel
          (intervals.filter (fun i =>
            !decide (i.1 ≤ eps.getD (eps.length / 2) 0 ∧ eps.getD (eps.length / 2) 0 ≤ i.2.1)))
          ((epsOf intervals).filter (fun e => decide (e < eps.getD (eps.length / 2) 0))))
        (recursiveBuild fuel
          (intervals.filter (fun i =>
            !decide (i.1 ≤ eps.getD (eps.length / 2) 0 ∧ eps.getD (eps.length / 2) 0 ≤ i.2.1)))
          ((epsOf intervals).filter (fun e => decide (eps.getD (eps.length / 2) 0 ≤ e)))) := by
  rw [recursiveBuild, if_neg hne]
  simp only [take_binarySearch _ (epsOf_sorted intervals),
    drop_binarySearch _ (epsOf_sorted intervals)]

/-! ### Point-query correctness -/

theorem capture_byLower {hit : List (ℚ × ℚ × α)} {i : ℚ × ℚ × α} {q : ℚ}
    (hi : i ∈ hit) (hle : i.1 ≤ q) :
    i ∈ (List.insertionSort byLower hit).takeWhile (fun j => decide (j.1 ≤ q)) := by
  refine mem_takeWhile_of_sorted ?_ (List.sorted_insertionSort byLower hit)
    ((List.mem_insertionSort byLower).mpr hi) (by simpa using hle)
  intro a b hab hb
  simp only [decide_eq_true_eq] at hb ⊢
  exact le_trans hab hb

theorem capture_byUpper {hit : List (ℚ × ℚ × α)} {i : ℚ × ℚ × α} {q : ℚ}
    (hi : i ∈ hit) (hle : q ≤ i.2.1) :
    i ∈ (List.insertionSort byUpperDesc hit).takeWhile (fun j => decide (q ≤ j.2.1)) := by
  refine mem_takeWhile_of_sorted ?_ (List.sorted_insertionSort byUpperDesc hit)
    ((List.mem_insertionSort byUpperDesc).mpr hi) (by simpa using hle)
  intro a b hab hb
  simp only [decide_eq_true_eq] at hb ⊢
  exact le_trans hb hab

theorem queryPoints_complete :
    ∀ (fuel : ℕ) (intervals : List (ℚ × ℚ × α)) (eps : List ℚ) (q : ℚ) (i : ℚ × ℚ × α),
      (∀ j ∈ intervals, j.1 ≤ j.2.1) → buildFuel intervals eps ≤ fuel →
      i ∈ intervals → i.1 ≤ q → q ≤ i.2.1 → (i.1 ∈ eps ∨ i.2.1 ∈ eps) →
      i.2.2 ∈ (recursiveBuild fuel intervals eps).queryPoints q := by
  intro fuel
  induction fuel with
  | zero =>
    intro intervals eps q i hval hfuel hi hlq hqu heps
    exfalso
    have h0 : intervals.length = 0 := by unfold buildFuel at hfuel; omega
    rw [List.length_eq_zero] at h0
    rw [h0] at hi
    cases hi
  | succ n ih =>
    intro intervals eps q i hval hfuel hi hlq hqu heps
    have hne : eps ≠ [] := by
      rcases heps with h | h <;> exact List.ne_nil_of_mem h
    rw [recursiveBuild_node n intervals eps hne, ITree.queryPoints]
    by_cases hcen : i.1 ≤ eps.getD (eps.length / 2) 0 ∧ eps.getD (eps.length / 2) 0 ≤ i.2.1
    · refine List.mem_append.mpr (Or.inl ?_)
      have hhit : i ∈ intervals.filter (fun j =>
          decide (j.1 ≤ eps.getD (eps.length / 2) 0 ∧ eps.getD (eps.length / 2) 0 ≤ j.2.1)) :=
        List.mem_filter.mpr ⟨hi, by simpa using hcen⟩
      rw [ITree.query]
      by_cases hq : q < eps.getD (eps.length / 2) 0
      · rw [if_pos hq]
        exact List.mem_map.mpr ⟨i, capture_byLower hhit hlq, rfl⟩
      · rw [if_neg hq]
        exact List.mem_map.mpr ⟨i, capture_byUpper hhit hqu, rfl⟩
    · have hrem : i ∈ intervals.filter (fun j =>
          !decide (j.1 ≤ eps.getD (eps.length / 2) 0 ∧ eps.getD (eps.length / 2) 0 ≤ j.2.1)) :=
        List.mem_filter.mpr ⟨hi, by
          rw [Bool.not_eq_true', decide_eq_false_iff_not]; exact hcen⟩
      have hval' : ∀ j ∈ intervals.filter (fun j =>
          !decide (j.1 ≤ eps.getD (eps.length / 2) 0 ∧ eps.getD (eps.length / 2) 0 ≤ j.2.1)),
          j.1 ≤ j.2.1 := fun j hj => hval j (List.mem_filter.mp hj).1
      refine List.mem_append.mpr (Or.inr ?_)
      by_cases hq : q < eps.getD (eps.length / 2) 0
      · rw [if_pos hq]
        have hup : i.2.1 < eps.getD (eps.length / 2) 0 := by
          rcases not_and_or.mp hcen with h | h
          · exact absurd (le_trans hlq (le_of_lt hq)) h
          · exact not_le.mp h
        have hceps : ∀ e ∈ (epsOf intervals).filter
            (fun e => decide (e < eps.getD (eps.length / 2) 0)),
            e ∈ endpointList intervals :=
          fun e he => mem_epsOf.mp (List.mem_filter.mp he).1
        have hdec := buildFuel_child_lt hval hne hceps
        refine ih _ _ _ _ hval' (by omega) hrem hlq hqu (Or.inr ?_)
        exact List.mem_filter.mpr ⟨mem_epsOf.mpr (List.mem_append.mpr (Or.inr
          (List.mem_map.mpr ⟨i, hi, rfl⟩))), by simpa using hup⟩
      · rw [if_neg hq]
        have hlo : eps.getD (eps.length / 2) 0 < i.1 := by
          rcases not_and_or.mp hcen with h | h
          · exact not_le.mp h
          · exact absurd (le_trans (not_lt.mp hq) hqu) h
        have hceps : ∀ e ∈ (epsOf intervals).filter
            (fun e => decide (eps.getD (eps.length / 2) 0 ≤ e)),
            e ∈ endpointList intervals :=
          fun e he => mem_epsOf.mp (List.mem_filter.mp he).1
        have hdec := buildFuel_child_lt hval hne hceps
        refine ih _ _ _ _ hval' (by omega) hrem hlq hqu (Or.inl ?_)
        exact List.mem_filter.mpr ⟨mem_epsOf.mpr (List.mem_append.mpr (Or.inl
          (List.mem_map.mpr ⟨i, hi, rfl⟩))), by simpa using le_of_lt hlo⟩

theorem queryPoints_sound :
    ∀ (fuel : ℕ) (intervals : List (ℚ × ℚ × α)) (eps : List ℚ) (q : ℚ) (a : α),
      a ∈ (recursiveBuild fuel intervals eps).queryPoints q →
      ∃ i, i ∈ intervals ∧ i.1 ≤ q ∧ q ≤ i.2.1 ∧ i.2.2 = a := by
  intro fuel
  induction fuel with
  | zero =>
    intro intervals eps q a ha
    rw [recursiveBuild, ITree.queryPoints] at ha
    cases ha
  | succ n ih =>
    intro intervals eps q a ha
    by_cases hne : eps = []
    · rw [hne, recursiveBuild, if_pos rfl, ITree.queryPoints] at ha
      cases ha
    · rw [recursiveBuild_node n intervals eps hne, ITree.queryPoints] at ha
      rcases List.mem_append.mp ha with hq | hq
      · rw [ITree.query] at hq
        by_cases hlt : q < eps.getD (eps.length / 2) 0
        · rw [if_pos hlt] at hq
          obtain ⟨i, hitw, hpay⟩ := List.mem_map.mp hq
          have hmem := (List.takeWhile_prefix
            (fun j : ℚ × ℚ × α => decide (j.1 ≤ q))).subset hitw
          have hin := List.mem_filter.mp ((List.mem_insertionSort byLower).mp hmem)
          have hcen : i.1 ≤ eps.getD (eps.length / 2) 0 ∧
              eps.getD (eps.length / 2) 0 ≤ i.2.1 := by simpa using hin.2
          have hpred : i.1 ≤ q := by simpa using List.mem_takeWhile_imp hitw
          exact ⟨i, hin.1, hpred, le_trans (le_of_lt hlt) hcen.2, hpay⟩
        · rw [if_neg hlt] at hq
          obtain ⟨i, hitw, hpay⟩ := List.mem_map.mp hq
          have hmem := (List.takeWhile_prefix
            (fun j : ℚ × ℚ × α => decide (q ≤ j.2.1))).subset hitw
          have hin := List.mem_filter.mp ((List.mem_insertionSort byUpperDesc).mp hmem)
          have hcen : i.1 ≤ eps.getD (eps.length / 2) 0 ∧
              eps.getD (eps.length / 2) 0 ≤ i.2.1 := by simpa using hin.2
          have hpred : q ≤ i.2.1 := by simpa using List.mem_takeWhile_imp hitw
          exact ⟨i, hin.1, le_trans hcen.1 (not_lt.mp hlt), hpred, hpay⟩
      · by_cases hlt : q < eps.getD (eps.length / 2) 0
        · rw [if_pos hlt] at hq
          obtain ⟨i, hi, h1, h2, h3⟩ := ih _ _ _ _ hq
          exact ⟨i, (List.mem_filter.mp hi).1, h1, h2, h3⟩
        · rw [if_neg hlt] at hq
          obtain ⟨i, hi, h1, h2, h3⟩ := ih _ _ _ _ hq
          exact ⟨i, (List.mem_filter.mp hi).1, h1, h2, h3⟩

/-! ### Range-query correctness -/

theorem query_node_sound {intervals : List (ℚ × ℚ × α)} {m q' : ℚ} {a : α} {l r : ITree α}
    (ha : a ∈ (ITree.node m
      (List.insertionSort byLower (intervals.filter (fun j => decide (j.1 ≤ m ∧ m ≤ j.2.1))))
      (List.insertionSort byUpperDesc (intervals.filter (fun j => decide (j.1 ≤ m ∧ m ≤ j.2.1))))
      l r).query q') :
    ∃ i, i ∈ intervals ∧ i.1 ≤ m ∧ m ≤ i.2.1 ∧ i.2.2 = a ∧
      ((q' < m ∧ i.1 ≤ q') ∨ (m ≤ q' ∧ q' ≤ i.2.1)) := by
  rw [ITree.query] at ha
  by_cases hlt : q' < m
  · rw [if_pos hlt] at ha
    obtain ⟨i, hitw, hpay⟩ := List.mem_map.mp ha
    have hmem := (List.takeWhile_prefix
      (fun j : ℚ × ℚ × α => decide (j.1 ≤ q'))).subset hitw
    have hin := List.mem_filter.mp ((List.mem_insertionSort byLower).mp hmem)
    have hcen : i.1 ≤ m ∧ m ≤ i.2.1 := by simpa using hin.2
    have hpred : i.1 ≤ q' := by simpa using List.mem_takeWhile_imp hitw
    exact ⟨i, hin.1, hcen.1, hcen.2, hpay, Or.inl ⟨hlt, hpred⟩⟩
  · rw [if_neg hlt] at ha
    obtain ⟨i, hitw, hpay⟩ := List.mem_map.mp ha
    have hmem := (List.takeWhile_prefix
      (fun j : ℚ × ℚ × α => decide (q' ≤ j.2.1))).subset hitw
    have hin := List.mem_filter.mp ((List.mem_insertionSort byUpperDesc).mp hmem)
    have hcen : i.1 ≤ m ∧ m ≤ i.2.1 := by simpa using hin.2
    have hpred : q' ≤ i.2.1 := by simpa using List.mem_takeWhile_imp hitw
    exact ⟨i, hin.1, hcen.1, hcen.2, hpay, Or.inr ⟨not_lt.mp hlt, hpred⟩⟩

theorem queryRange_sound :
    ∀ (fuel : ℕ) (intervals : List (ℚ × ℚ × α)) (eps : List ℚ) (lo hi : ℚ) (a : α),
      lo ≤ hi →
      a ∈ (recursiveBuild fuel intervals eps).queryRange (lo, hi) →
      ∃ i, i ∈ intervals ∧ lo ≤ i.2.1 ∧ i.1 ≤ hi ∧ i.2.2 = a := by
  intro fuel
  induction fuel with
  | zero =>
    intro intervals eps lo hi a _ ha
    rw [recursiveBuild, ITree.queryRange] at ha
    cases ha
  | succ n ih =>
    intro intervals eps lo hi a hlohi ha
    by_cases hne : eps = []
    · rw [hne, recursiveBuild, if_pos rfl, ITree.queryRange] at ha
      cases ha
    · rw [recursiveBuild_node n intervals eps hne, ITree.queryRange] at ha
      dsimp only at ha
      by_cases hm1 : eps.getD (eps.length / 2) 0 < lo
      · rw [if_pos hm1] at ha
        rcases List.mem_append.mp ha with hc | hq
        · obtain ⟨i, hi', h1, h2, h3⟩ := ih _ _ _ _ _ hlohi hc
          exact ⟨i, (List.mem_filter.mp hi').1, h1, h2, h3⟩
        · obtain ⟨i, hii, hc1, hc2, hpay, hcase⟩ := query_node_sound hq
          rcases hcase with ⟨hq1, _⟩ | ⟨_, hq2⟩
          · exact absurd (lt_trans hq1 hm1) (lt_irrefl lo)
          · exact ⟨i, hii, hq2, le_trans hc1 (le_trans (le_of_lt hm1) hlohi), hpay⟩
      · rw [if_neg hm1] at ha
        by_cases hm2 : hi < eps.getD (eps.length / 2) 0
        · rw [if_pos hm2] at ha
          rcases List.mem_append.mp ha with hc | hq
          · obtain ⟨i, hi', h1, h2, h3⟩ := ih _ _ _ _ _ hlohi hc
            exact ⟨i, (List.mem_filter.mp hi').1, h1, h2, h3⟩
          · obtain ⟨i, hii, hc1, hc2, hpay, hcase⟩ := query_node_sound hq
            rcases hcase with ⟨_, hq1⟩ | ⟨hq2, _⟩
            · exact ⟨i, hii, le_trans hlohi (le_trans (le_of_lt hm2) hc2), hq1, hpay⟩
            · exact absurd (lt_of_lt_of_le hm2 hq2) (lt_irrefl hi)
        · rw [if_neg hm2] at ha
          rcases List.mem_append.mp ha with hab | hc
          · rcases List.mem_append.mp hab with hq | hcl
            · obtain ⟨i, hii, hc1, hc2, hpay, _⟩ := query_node_sound hq
              exact ⟨i, hii, le_trans (not_lt.mp hm1) hc2, le_trans hc1 (not_lt.mp hm2), hpay⟩
            · obtain ⟨i, hi', h1, h2, h3⟩ := ih _ _ _ _ _ hlohi hcl
              exact ⟨i, (List.mem_filter.mp hi').1, h1, h2, h3⟩
          · obtain ⟨i, hi', h1, h2, h3⟩ := ih _ _ _ _ _ hlohi hc
            exact ⟨i, (List.mem_filter.mp hi').1, h1, h2, h3⟩

theorem queryRange_complete :
    ∀ (fuel : ℕ) (intervals : List (ℚ × ℚ × α)) (eps : List ℚ) (lo hi : ℚ) (i : ℚ × ℚ × α),
      (∀ j ∈ intervals, j.1 ≤ j.2.1) → buildFuel intervals eps ≤ fuel →
      i ∈ intervals → lo ≤ hi → lo ≤ i.2.1 → i.1 ≤ hi → (i.1 ∈ eps ∨ i.2.1 ∈ eps) →
      i.2.2 ∈ (recursiveBuild fuel intervals eps).queryRange (lo, hi) := by
  intro fuel
  induction fuel with
  | zero =>
    intro intervals eps lo hi i hval hfuel hi' _ _ _ _
    exfalso
    have h0 : intervals.length = 0 := by unfold buildFuel at hfuel; omega
    rw [List.length_eq_zero] at h0
    rw [h0] at hi'
    cases hi'
  | succ n ih =>
    intro intervals eps lo hi i hval hfuel hii hlohi hloup hlohi' heps
    have hne : eps ≠ [] := by
      rcases heps with h | h <;> exact List.ne_nil_of_mem h
    rw [recursiveBuild_node n intervals eps hne, ITree.queryRange]
    dsimp only
    by_cases hcen : i.1 ≤ eps.getD (eps.length / 2) 0 ∧ eps.getD (eps.length / 2) 0 ≤ i.2.1
    · have hhit : i ∈ intervals.filter (fun j =>
          decide (j.1 ≤ eps.getD (eps.length / 2) 0 ∧ eps.getD (eps.length / 2) 0 ≤ j.2.1)) :=
        List.mem_filter.mpr ⟨hii, by simpa using hcen⟩
      by_cases hm1 : eps.getD (eps.length / 2) 0 < lo
      · rw [if_pos hm1]
        refine List.mem_append.mpr (Or.inr ?_)
        rw [ITree.query, if_neg (not_lt.mpr (le_of_lt hm1))]
        exact List.mem_map.mpr ⟨i, capture_byUpper hhit hloup, rfl⟩
      · rw [if_neg hm1]
        by_cases hm2 : hi < eps.getD (eps.length / 2) 0
        · rw [if_pos hm2]
          refine List.mem_append.mpr (Or.inr ?_)
          rw [ITree.query, if_pos hm2]
          exact List.mem_map.mpr ⟨i, capture_byLower hhit hlohi', rfl⟩
        · rw [if_neg hm2]
          refine List.mem_append.mpr (Or.inl (List.mem_append.mpr (Or.inl ?_)))
          rw [ITree.query, if_neg (lt_irrefl _)]
          exact List.mem_map.mpr ⟨i, capture_byUpper hhit hcen.2, rfl⟩
    · have hrem : i ∈ intervals.filter (fun j =>
          !decide (j.1 ≤ eps.getD (eps.length / 2) 0 ∧ eps.getD (eps.length / 2) 0 ≤ j.2.1)) :=
        List.mem_filter.mpr ⟨hii, by
          rw [Bool.not_eq_true', decide_eq_false_iff_not]; exact hcen⟩
      have hval' : ∀ j ∈ intervals.filter (fun j =>
          !decide (j.1 ≤ eps.getD (eps.length / 2) 0 ∧ eps.getD (eps.length / 2) 0 ≤ j.2.1)),
          j.1 ≤ j.2.1 := fun j hj => hval j (List.mem_filter.mp hj).1
      have hcepsl : ∀ e ∈ (epsOf intervals).filter
          (fun e => decide (e < eps.getD (eps.length / 2) 0)),
          e ∈ endpointList intervals :=
        fun e he => mem_epsOf.mp (List.mem_filter.mp he).1
      have hcepsr : ∀ e ∈ (epsOf intervals).filter
          (fun e => decide (eps.getD (eps.length / 2) 0 ≤ e)),
          e ∈ endpointList intervals :=
        fun e he => mem_epsOf.mp (List.mem_filter.mp he).1
      have hdecl := buildFuel_child_lt hval hne hcepsl
      have hdecr := buildFuel_child_lt hval hne hcepsr
      have hmemup : i.2.1 ∈ epsOf intervals :=
        mem_epsOf.mpr (List.mem_append.mpr (Or.inr (List.mem_map.mpr ⟨i, hii, rfl⟩)))
      have hmemlo : i.1 ∈ epsOf intervals :=
        mem_epsOf.mpr (List.mem_append.mpr (Or.inl (List.mem_map.mpr ⟨i, hii, rfl⟩)))
      by_cases hm1 : eps.getD (eps.length / 2) 0 < lo
      · rw [if_pos hm1]
        refine List.mem_append.mpr (Or.inl ?_)
        have hlo : eps.getD (eps.length / 2) 0 < i.1 := by
          rcases not_and_or.mp hcen with h | h
          · exact not_le.mp h
          · exact absurd (le_trans (le_of_lt hm1) hloup) h
        refine ih _ _ _ _ _ hval' (by omega) hrem hlohi hloup hlohi' (Or.inl ?_)
        exact List.mem_filter.mpr ⟨hmemlo, by simpa using le_of_lt hlo⟩
      · rw [if_neg hm1]
        by_cases hm2 : hi < eps.getD (eps.length / 2) 0
        · rw [if_pos hm2]
          refine List.mem_append.mpr (Or.inl ?_)
          have hup : i.2.1 < eps.getD (eps.length / 2) 0 := by
            rcases not_and_or.mp hcen with h | h
            · exact absurd (le_trans hlohi' (le_of_lt hm2)) h
            · exact not_le.mp h
          refine ih _ _ _ _ _ hval' (by omega) hrem hlohi hloup hlohi' (Or.inr ?_)
          exact List.mem_filter.mpr ⟨hmemup, by simpa using hup⟩
        · rw [if_neg hm2]
          rcases not_and_or.mp hcen with h | h
          · have hlo : eps.getD (eps.length / 2) 0 < i.1 := not_le.mp h
            refine List.mem_append.mpr (Or.inr ?_)
            refine ih _ _ _ _ _ hval' (by omega) hrem hlohi hloup hlohi' (Or.inl ?_)
            exact List.mem_filter.mpr ⟨hmemlo, by simpa using le_of_lt hlo⟩
          · have hup : i.2.1 < eps.getD (eps.length / 2) 0 := not_le.mp h
            refine List.mem_append.mpr (Or.inl (List.mem_append.mpr (Or.inr ?_)))
            refine ih _ _ _ _ _ hval' (by omega) hrem hlohi hloup hlohi' (Or.inr ?_)
            exact List.mem_filter.mpr ⟨hmemup, by simpa using hup⟩

/-! ### Build inversion -/

theorem build_ok_inv {intervals : List (ℚ × ℚ × α)} {t : ITree α}
    (hb : IntervalTree.build intervals = .ok t) :
    (∀ j ∈ intervals, j.1 ≤ j.2.1) ∧
      t = recursiveBuild (2 * intervals.length + 1) intervals (epsOf intervals) := by
  unfold IntervalTree.build at hb
  split at hb
  · cases hb
  · rename_i hfil
    have hval : ∀ j ∈ intervals, j.1 ≤ j.2.1 := by
      intro j hj
      have := List.filter_eq_nil_iff.mp hfil j hj
      simp only [decide_eq_true_eq] at this
      exact not_lt.mp this
    cases hb
    exact ⟨hval, rfl⟩

theorem buildFuel_root (intervals : List (ℚ × ℚ × α)) :
    buildFuel intervals (epsOf intervals) ≤ 2 * intervals.length + 1 := by
  unfold buildFuel
  rw [if_pos (fun e he => mem_epsOf.mp he)]
  omega

/-! ### Claim C1 -/

/-- C1: for every batch accepted by the interval-tree build and every scalar
`q`, the point query returns, as a set, exactly the payloads of the intervals
that contain `q`. -/
theorem interval_point_query_exact (intervals : List (ℚ × ℚ × α)) (t : ITree α)
    (hb : IntervalTree.build intervals = .ok t) (q : ℚ) (a : α) :
    a ∈ t.queryPoints q ↔ ∃ i ∈ intervals, i.1 ≤ q ∧ q ≤ i.2.1 ∧ i.2.2 = a := by
  obtain ⟨hval, rfl⟩ := build_ok_inv hb
  constructor
  · intro ha
    obtain ⟨i, h1, h2, h3, h4⟩ := queryPoints_sound _ _ _ _ _ ha
    exact ⟨i, h1, h2, h3, h4⟩
  · rintro ⟨i, h1, h2, h3, h4⟩
    subst h4
    exact queryPoints_complete _ _ _ _ _ hval (buildFuel_root intervals) h1 h2 h3
      (Or.inl (mem_epsOf.mpr (List.mem_append.mpr (Or.inl (List.mem_map.mpr ⟨i, h1, rfl⟩)))))

def exIntervalsA : List (ℚ × ℚ × ℕ) := [(-1, 2, 0), (5, 9, 1), (3, 6, 2)]

def exTreeA : ITree ℕ := (IntervalTree.build exIntervalsA).toOption.getD .nil

theorem interval_point_query_exact_witness :
    IntervalTree.build exIntervalsA = .ok exTreeA ∧
      (0 ∈ exTreeA.queryPoints 1 ↔
        ∃ i ∈ exIntervalsA, i.1 ≤ 1 ∧ 1 ≤ i.2.1 ∧ i.2.2 = 0) :=
  ⟨by decide, interval_point_query_exact exIntervalsA exTreeA (by decide) 1 0⟩

/-! ### Claim C2 -/

def exIntervalsB : List (ℚ × ℚ × ℕ) := [(5, 10, 0), (0, 1, 1)]

def exTreeB : ITree ℕ := (IntervalTree.build exIntervalsB).toOption.getD .nil

/-- C2 counterexample: for the valid batch `[(5,10,'X'), (0,1,'Y')]` and the
inverted query pair `(8, 3)`, the range query returns the payload of
`(5,10)` even though that interval does not satisfy the brute-force overlap
formula `not (upper < lo or lower > hi)`, so the claim fails for pairs with
`lo > hi`. -/
theorem interval_range_query_counterexample :
    IntervalTree.build exIntervalsB = .ok exTreeB ∧
      0 ∈ exTreeB.queryRange (8, 3) ∧
      ¬ ∃ i ∈ exIntervalsB, ¬ (i.2.1 < 8 ∨ 3 < i.1) ∧ i.2.2 = 0 :=
  ⟨by decide, by decide, by decide⟩

/-- C2 amended: for every batch accepted by the build and every range
`(lo, hi)` with `lo ≤ hi`, the range query returns, as a set, exactly the
payloads of the intervals overlapping `[lo, hi]`; an empty tree yields the
empty result. -/
theorem interval_range_query_exact (intervals : List (ℚ × ℚ × α)) (t : ITree α)
    (hb : IntervalTree.build intervals = .ok t) (lo hi : ℚ) (hlohi : lo ≤ hi) :
    (∀ a, a ∈ t.queryRange (lo, hi) ↔
      ∃ i ∈ intervals, ¬ (i.2.1 < lo ∨ hi < i.1) ∧ i.2.2 = a) ∧
      (ITree.nil : ITree α).queryRange (lo, hi) = [] := by
  obtain ⟨hval, rfl⟩ := build_ok_inv hb
  refine ⟨?_, rfl⟩
  intro a
  constructor
  · intro ha
    obtain ⟨i, h1, h2, h3, h4⟩ := queryRange_sound _ _ _ _ _ _ hlohi ha
    refine ⟨i, h1, ?_, h4⟩
    rw [not_or, not_lt, not_lt]
    exact ⟨h2, h3⟩
  · rintro ⟨i, h1, h2, h4⟩
    subst h4
    rw [not_or, not_lt, not_lt] at h2
    exact queryRange_complete _ _ _ _ _ _ hval (buildFuel_root intervals) h1 hlohi h2.1 h2.2
      (Or.inl (mem_epsOf.mpr (List.mem_append.mpr (Or.inl (List.mem_map.mpr ⟨i, h1, rfl⟩)))))

theorem interval_range_query_exact_witness :
    IntervalTree.build exIntervalsA = .ok exTreeA ∧ (7 : ℚ) ≤ 14 ∧
      ((∀ a, a ∈ exTreeA.queryRange (7, 14) ↔
        ∃ i ∈ exIntervalsA, ¬ (i.2.1 < 7 ∨ 14 < i.1) ∧ i.2.2 = a) ∧
        (ITree.nil : ITree ℕ).queryRange (7, 14) = []) :=
  ⟨by decide, by norm_num,
    interval_range_query_exact exIntervalsA exTreeA (by decide) 7 14 (by norm_num)⟩

/-! ### Claim C3 -/

/-- C3: a batch containing an interval with `lower > upper` makes the whole
build fail with the `InvalidInterval` error; no tree is produced. -/
theorem build_rejects_invalid (intervals : List (ℚ × ℚ × α))
    (h : ∃ i ∈ intervals, i.2.1 < i.1) :
    IntervalTree.build intervals = .error "InvalidInterval" := by
  unfold IntervalTree.build
  split
  · rfl
  · rename_i hfil
    obtain ⟨i, hi, hlt⟩ := h
    have := List.filter_eq_nil_iff.mp hfil i hi
    simp only [decide_eq_true_eq] at this
    exact absurd hlt this

def exIntervalsC : List (ℚ × ℚ × ℕ) := [(5, 3, 0), (0, 1, 1)]

theorem build_rejects_invalid_witness :
    (∃ i ∈ exIntervalsC, i.2.1 < i.1) ∧
      IntervalTree.build exIntervalsC = .error "InvalidInterval" :=
  ⟨by decide, build_rejects_invalid exIntervalsC (by decide)⟩

/-! ### Claims C8 and C9 -/

/-- Follows the C8 claim's words (spec section 4.1 step 5): identical to
`recursiveBuild` except that the endpoint set seeding the two child
recursions is recomputed from the remaining intervals only, instead of from
the full interval set of the step as line 242 of the source does. -/
def recursiveBuildRemaining : ℕ → List (ℚ × ℚ × α) → List ℚ → ITree α
  | 0, _, _ => .nil
  | fuel + 1, intervals, eps =>
    if eps = [] then .nil
    else
      let median := eps.getD (eps.length / 2) 0
      let hit_is := intervals.filter (fun i => decide (i.1 ≤ median ∧ median ≤ i.2.1))
      let rem_is := intervals.filter (fun i => !decide (i.1 ≤ median ∧ median ≤ i.2.1))
      let eps' := epsOf rem_is
      let bp := binarySearch eps' median
      ITree.node median (List.insertionSort byLower hit_is)
        (List.insertionSort byUpperDesc hit_is)
        (recursiveBuildRemaining fuel rem_is (eps'.take bp))
        (recursiveBuildRemaining fuel rem_is (eps'.drop bp))

/-- Root value of a tree, `None` for the empty tree. -/
def rootVal : ITree α → Option ℚ
  | .nil => none
  | .node v _ _ _ _ => some v

/-- Right child of a tree, the empty tree for the empty tree. -/
def rightChild : ITree α → ITree α
  | .nil => .nil
  | .node _ _ _ _ r => r

def exIntervalsD : List (ℚ × ℚ × ℕ) := [(0, 10, 0), (20, 30, 1)]

/-- C8 counterexample: on the valid batch `[(0,10,'A'), (20,30,'B')]` the
source build differs from the build that recomputes the endpoint sets from
the remaining intervals only: at the root (median 20, centered interval
`(20,30)`, remaining `[(0,10)]`) the source seeds the right child with the
full-set endpoints `[20, 30]`, producing a node with value 30, whereas the
remaining-only endpoints `< 20` leave nothing for the right child. -/
theorem endpoint_recompute_counterexample :
    recursiveBuild 5 exIntervalsD (epsOf exIntervalsD) ≠
        recursiveBuildRemaining 5 exIntervalsD (epsOf exIntervalsD) ∧
      rootVal (rightChild (recursiveBuild 5 exIntervalsD (epsOf exIntervalsD))) = some 30 ∧
      rootVal (rightChild (recursiveBuildRemaining 5 exIntervalsD (epsOf exIntervalsD))) =
        none :=
  ⟨by decide, by decide, by decide⟩

/-- C8 amended: at every step of the recursive build with a non-empty
endpoint list, the endpoint sets seeding the two child recursions are
recomputed from the full interval set of that step (not from the remaining
intervals only); the recomputed sorted endpoint list is split by the binary
search at the median, endpoints strictly below the median seeding the left
child and endpoints greater than or equal to the median seeding the right
child, while both children receive the remaining intervals. -/
theorem endpoint_recompute_full_set (fuel : ℕ) (intervals : List (ℚ × ℚ × α))
    (eps : List ℚ) (hne : eps ≠ []) :
    recursiveBuild (fuel + 1) intervals eps =
      ITree.node (eps.getD (eps.length / 2) 0)
        (List.insertionSort byLower (intervals.filter (fun i =>
          decide (i.1 ≤ eps.getD (eps.length / 2) 0 ∧ eps.getD (eps.length / 2) 0 ≤ i.2.1))))
        (List.insertionSort byUpperDesc (intervals.filter (fun i =>
          decide (i.1 ≤ eps.getD (eps.length / 2) 0 ∧ eps.getD (eps.length / 2) 0 ≤ i.2.1))))
        (recursiveBuild fuel
          (intervals.filter (fun i =>
            !decide (i.1 ≤ eps.getD (eps.length / 2) 0 ∧ eps.getD (eps.length / 2) 0 ≤ i.2.1)))
          ((epsOf intervals).filter (fun e => decide (e < eps.getD (eps.length / 2) 0))))
        (recursiveBuild fuel
          (intervals.filter (fun i =>
            !decide (i.1 ≤ eps.getD (eps.length / 2) 0 ∧ eps.getD (eps.length / 2) 0 ≤ i.2.1)))
          ((epsOf intervals).filter (fun e => decide (eps.getD (eps.length / 2) 0 ≤ e)))) :=
  recursiveBuild_node fuel intervals eps hne

theorem endpoint_recompute_full_set_witness :
    epsOf exIntervalsD ≠ [] ∧
      recursiveBuild (4 + 1) exIntervalsD (epsOf exIntervalsD) =
        ITree.node ((epsOf exIntervalsD).getD ((epsOf exIntervalsD).length / 2) 0)
          (List.insertionSort byLower (exIntervalsD.filter (fun i =>
            decide (i.1 ≤ (epsOf exIntervalsD).getD ((epsOf exIntervalsD).length / 2) 0 ∧
              (epsOf exIntervalsD).getD ((epsOf exIntervalsD).length / 2) 0 ≤ i.2.1))))
          (List.insertionSort byUpperDesc (exIntervalsD.filter (fun i =>
            decide (i.1 ≤ (epsOf exIntervalsD).getD ((epsOf exIntervalsD).length / 2) 0 ∧
              (epsOf exIntervalsD).getD ((epsOf exIntervalsD).length / 2) 0 ≤ i.2.1))))
          (recursiveBuild 4
            (exIntervalsD.filter (fun i =>
              !decide (i.1 ≤ (epsOf exIntervalsD).getD ((epsOf exIntervalsD).length / 2) 0 ∧
                (epsOf exIntervalsD).getD ((epsOf exIntervalsD).length / 2) 0 ≤ i.2.1)))
            ((epsOf exIntervalsD).filter (fun e =>
              decide (e < (epsOf exIntervalsD).getD ((epsOf exIntervalsD).length / 2) 0))))
          (recursiveBuild 4
            (exIntervalsD.filter (fun i =>
              !decide (i.1 ≤ (epsOf exIntervalsD).getD ((epsOf exIntervalsD).length / 2) 0 ∧
                (epsOf exIntervalsD).getD ((epsOf exIntervalsD).length / 2) 0 ≤ i.2.1)))
            ((epsOf exIntervalsD).filter (fun e =>
              decide ((epsOf exIntervalsD).getD ((epsOf exIntervalsD).length / 2) 0 ≤ e)))) :=
  ⟨by decide, endpoint_recompute_full_set 4 exIntervalsD (epsOf exIntervalsD) (by decide)⟩

def exIntervalsE : List (ℚ × ℚ × ℕ) := [(0, 1, 0), (2, 3, 1)]

def exTreeE : ITree ℕ := (IntervalTree.build exIntervalsE).toOption.getD .nil

/-- C9 counterexample: for the batch `[(0,1,'A'), (2,3,'B')]` the sorted
deduplicated endpoint list is `[0, 1, 2, 3]` (even length), the root median
is the element at index `length/2 = 2`, namely `2`, and that element is not
the lower-middle element (index 1, namely `1`). -/
theorem median_lower_middle_counterexample :
    epsOf exIntervalsE = [0, 1, 2, 3] ∧
      (epsOf exIntervalsE).length % 2 = 0 ∧
      rootVal exTreeE =
        some ((epsOf exIntervalsE).getD ((epsOf exIntervalsE).length / 2) 0) ∧
      (epsOf exIntervalsE).getD ((epsOf exIntervalsE).length / 2) 0 ≠
        (epsOf exIntervalsE).getD ((epsOf exIntervalsE).length / 2 - 1) 0 := by
  refine ⟨by decide, by decide, by decide, by decide⟩

/-- C9 amended: at every non-terminal step of the recursive build, the node's
median is the element of the current sorted endpoint list at index
`length / 2` (integer division) — the upper-middle element for even-length
lists; being sorted, all earlier entries are at most the median and all
later entries at least the median. -/
theorem median_index_upper_middle (fuel : ℕ) (intervals : List (ℚ × ℚ × α))
    (eps : List ℚ) (hne : eps ≠ []) (hs : eps.Sorted (· ≤ ·)) :
    rootVal (recursiveBuild (fuel + 1) intervals eps) =
        some (eps.getD (eps.length / 2) 0) ∧
      (∀ j, j < eps.length / 2 → eps.getD j 0 ≤ eps.getD (eps.length / 2) 0) ∧
      (∀ j, eps.length / 2 ≤ j → j < eps.length →
        eps.getD (eps.length / 2) 0 ≤ eps.getD j 0) := by
  refine ⟨?_, ?_, ?_⟩
  · rw [recursiveBuild_node fuel intervals eps hne, rootVal]
  · intro j hj
    exact sorted_getD_mono hs (le_of_lt hj)
      (Nat.div_lt_self (List.length_pos.mpr hne) one_lt_two)
  · intro j h1 h2
    exact sorted_getD_mono hs h1 h2

theorem median_index_upper_middle_witness :
    epsOf exIntervalsE ≠ [] ∧ (epsOf exIntervalsE).Sorted (· ≤ ·) ∧
      (rootVal (recursiveBuild (4 + 1) exIntervalsE (epsOf exIntervalsE)) =
          some ((epsOf exIntervalsE).getD ((epsOf exIntervalsE).length / 2) 0) ∧
        (∀ j, j < (epsOf exIntervalsE).length / 2 →
          (epsOf exIntervalsE).getD j 0 ≤
            (epsOf exIntervalsE).getD ((epsOf exIntervalsE).length / 2) 0) ∧
        (∀ j, (epsOf exIntervalsE).length / 2 ≤ j → j < (epsOf exIntervalsE).length →
          (epsOf exIntervalsE).getD ((epsOf exIntervalsE).length / 2) 0 ≤
            (epsOf exIntervalsE).getD j 0)) :=
  ⟨by decide, by decide,
    median_index_upper_middle 4 exIntervalsE (epsOf exIntervalsE) (by decide) (by decide)⟩

/-! ### Grid: geometry helpers -/

/-- Modelled from the spec: the `Rectangle` type from `shapes.py` (not in
src/), four scalar fields with `left ≤ right` and `lower ≤ upper` expected. -/
structure Rectangle where
  left : ℚ
  right : ℚ
  lower : ℚ
  upper : ℚ

/-- Squared Euclidean distance between two 2D points, exact over ℚ. -/
def sqDist (p q : ℚ × ℚ) : ℚ := (p.1 - q.1) ^ 2 + (p.2 - q.2) ^ 2

/-- Modelled from the spec: `get_points_dist` from `standalone.py` (not in
src/) is the symmetric Euclidean distance between two 2D points. -/
noncomputable def get_points_dist (p q : ℚ × ℚ) : ℝ := Real.sqrt ((sqDist p q : ℚ) : ℝ)

/-- The comparison `get_points_dist p q ≤ r` of the source, expressed through
the squared distance so that it is decidable: a nonnegative square root is at
most `r` exactly when `r` is nonnegative and the radicand is at most `r ^ 2`
(`get_points_dist_le_iff` below). -/
def distLe (p q : ℚ × ℚ) (r : ℚ) : Prop := 0 ≤ r ∧ sqDist p q ≤ r ^ 2

instance (p q : ℚ × ℚ) (r : ℚ) : Decidable (distLe p q r) :=
  inferInstanceAs (Decidable (_ ∧ _))

/-- The comparison `get_points_dist p q > s` of the source. -/
def distGt (p q : ℚ × ℚ) (s : ℚ) : Prop := ¬ distLe p q s

instance (p q : ℚ × ℚ) (s : ℚ) : Decidable (distGt p q s) :=
  inferInstanceAs (Decidable (¬ _))

theorem sqDist_nonneg (p q : ℚ × ℚ) : 0 ≤ sqDist p q := by
  unfold sqDist
  positivity

theorem get_points_dist_le_iff {p q : ℚ × ℚ} {r : ℚ} :
    get_points_dist p q ≤ (r : ℝ) ↔ distLe p q r := by
  unfold get_points_dist distLe
  constructor
  · intro h
    have hr : (0 : ℝ) ≤ (r : ℝ) := le_trans (Real.sqrt_nonneg _) h
    have hsq : ((sqDist p q : ℚ) : ℝ) ≤ (r : ℝ) ^ 2 := by
      have h2 := mul_self_le_mul_self (Real.sqrt_nonneg _) h
      rwa [Real.mul_self_sqrt (by exact_mod_cast sqDist_nonneg p q), ← pow_two] at h2
    exact ⟨by exact_mod_cast hr, by exact_mod_cast hsq⟩
  · rintro ⟨hr, hsq⟩
    have h1 : ((sqDist p q : ℚ) : ℝ) ≤ ((r : ℝ)) ^ 2 := by exact_mod_cast hsq
    have h2 := Real.sqrt_le_sqrt h1
    rwa [Real.sqrt_sq (by exact_mod_cast hr)] at h2

theorem get_points_dist_gt_iff {p q : ℚ × ℚ} {s : ℚ} :
    (s : ℝ) < get_points_dist p q ↔ distGt p q s := by
  rw [← not_le, distGt]
  exact not_congr get_points_dist_le_iff

theorem get_points_dist_le_dist_iff {a b c d : ℚ × ℚ} :
    get_points_dist a b ≤ get_points_dist c d ↔ sqDist a b ≤ sqDist c d := by
  unfold get_points_dist
  constructor
  · intro h
    have h2 := mul_self_le_mul_self (Real.sqrt_nonneg _) h
    rw [Real.mul_self_sqrt (by exact_mod_cast sqDist_nonneg a b),
      Real.mul_self_sqrt (by exact_mod_cast sqDist_nonneg c d)] at h2
    exact_mod_cast h2
  · intro h
    exact Real.sqrt_le_sqrt (by exact_mod_cast h)

/-! ### Grid: state and operations -/

/-- First-match association lookup, as a Python `dict` read. -/
def alookup {κ β : Type} [DecidableEq κ] : List (κ × β) → κ → Option β
  | [], _ => none
  | e :: t, k => if e.1 = k then some e.2 else alookup t k

/-- Update the first entry with the given key, or append a fresh key at the
end, as a Python `dict` write. -/
def aset {κ β : Type} [DecidableEq κ] : List (κ × β) → κ → β → List (κ × β)
  | [], k, v => [(k, v)]
  | e :: t, k, v => if e.1 = k then (k, v) :: t else e :: aset t k v

/-- Delete the first entry with the given key, as a Python `del`. -/
def adel {κ β : Type} [DecidableEq κ] : List (κ × β) → κ → List (κ × β)
  | [], _ => []
  | e :: t, k => if e.1 = k then t else e :: adel t k

/-- The `Grid` state (locators.py lines 252-281): resolution, bucket map from
cell coordinates to `(point, item)` lists, the two coordinate ranges, and the
cell extents. -/
structure Grid (α : Type) where
  res : ℚ
  hash : List ((ℤ × ℤ) × List ((ℚ × ℚ) × α))
  x_range : ℚ × ℚ
  y_range : ℚ × ℚ
  i_range : ℤ
  j_range : ℤ
deriving DecidableEq

/-- `Grid.__init__` (locators.py lines 257-281): rejects `resolution == 0`
(and only zero) with the `InvalidResolution` error; the `try`/`except` around
the extent computation can only fire on a zero division, which the guard
already rules out. -/
def mkGrid (bounds : Rectangle) (resolution : ℚ) : Except String (Grid α) :=
  if resolution = 0 then .error "InvalidResolution"
  else .ok
    { res := resolution
      hash := []
      x_range := (bounds.left, bounds.right)
      y_range := (bounds.lower, bounds.upper)
      i_range := ⌈(bounds.right - bounds.left) / resolution⌉
      j_range := ⌈(bounds.upper - bounds.lower) / resolution⌉ }

/-- `Grid.in_grid` (locators.py lines 283-290). -/
def Grid.in_grid (g : Grid α) (loc : ℚ × ℚ) : Prop :=
  g.x_range.1 ≤ loc.1 ∧ loc.1 ≤ g.x_range.2 ∧ g.y_range.1 ≤ loc.2 ∧ loc.2 ≤ g.y_range.2

instance (g : Grid α) (loc : ℚ × ℚ) : Decidable (g.in_grid loc) :=
  inferInstanceAs (Decidable (_ ∧ _ ∧ _ ∧ _))

/-- `Grid.__grid_loc` (locators.py lines 292-295).  Python's `int()` truncates
toward zero while `⌊·⌋` rounds down; the two differ only on negative
arguments, where both are clamped to 0 by the `max` that follows. -/
def Grid.grid_loc (g : Grid α) (loc : ℚ × ℚ) : ℤ × ℤ :=
  (min g.i_range (max ⌊(loc.1 - g.x_range.1) / g.res⌋ 0),
   min g.j_range (max ⌊(loc.2 - g.y_range.1) / g.res⌋ 0))

/-- `Grid.add` (locators.py lines 297-318); the source returns the inserted
item itself, so the embedding returns the updated grid state. -/
def Grid.add (g : Grid α) (item : α) (pt : ℚ × ℚ) : Except String (Grid α) :=
  if ¬ g.in_grid pt then .error "OutOfBounds"
  else
    match alookup g.hash (g.grid_loc pt) with
    | some bucket => .ok { g with hash := aset g.hash (g.grid_loc pt) (bucket ++ [(pt, item)]) }
    | none => .ok { g with hash := aset g.hash (g.grid_loc pt) [(pt, item)] }

/-- `Grid.remove` (locators.py lines 320-342): looking up a missing bucket
raises a `KeyError` in the source, `list.remove` of a missing pair raises a
`ValueError` (the spec's `NotFound`), and an emptied bucket is deleted. -/
def Grid.remove [DecidableEq α] (g : Grid α) (item : α) (pt : ℚ × ℚ) :
    Except String (Grid α) :=
  if ¬ g.in_grid pt then .error "OutOfBounds"
  else
    match alookup g.hash (g.grid_loc pt) with
    | none => .error "KeyError"
    | some bucket =>
      if (pt, item) ∈ bucket then
        let b := bucket.erase (pt, item)
        .ok { g with hash :=
          (if b = [] then adel g.hash (g.grid_loc pt) else aset g.hash (g.grid_loc pt) b) }
      else .error "NotFound"

/-- `xrange(a, b + 1)` over integer cell indices. -/
def intRange (a b : ℤ) : List ℤ :=
  (List.range (b + 1 - a).toNat).map (fun n : ℕ => a + (n : ℤ))

/-- `Grid.bounds` (locators.py lines 344-375): the rectangular region query. -/
def Grid.bounds (g : Grid α) (r : Rectangle) : List α :=
  (intRange (g.grid_loc (r.left, r.lower)).1 (g.grid_loc (r.right, r.upper)).1).flatMap
    (fun i =>
      (intRange (g.grid_loc (r.left, r.lower)).2 (g.grid_loc (r.right, r.upper)).2).flatMap
        (fun j =>
          (((alookup g.hash (i, j)).getD []).filter (fun e =>
            decide (r.left ≤ e.1.1 ∧ e.1.1 ≤ r.right ∧
              r.lower ≤ e.1.2 ∧ e.1.2 ≤ r.upper))).map (fun e => e.2)))

/-- `Grid.proximity` (locators.py lines 377-406). -/
def Grid.proximity (g : Grid α) (pt : ℚ × ℚ) (r : ℚ) : List α :=
  (intRange (g.grid_loc (pt.1 - r, pt.2 - r)).1 (g.grid_loc (pt.1 + r, pt.2 + r)).1).flatMap
    (fun i =>
      (intRange (g.grid_loc (pt.1 - r, pt.2 - r)).2 (g.grid_loc (pt.1 + r, pt.2 + r)).2).flatMap
        (fun j =>
          (((alookup g.hash (i, j)).getD []).filter
            (fun e => decide (distLe pt e.1 r))).map (fun e => e.2)))

/-- The corner condition of the `while` loop in `Grid.nearest` (locators.py
lines 429-432): some corner of the bounding rectangle is farther than the
current search size. -/
def Grid.cornerFar (g : Grid α) (pt : ℚ × ℚ) (s : ℚ) : Prop :=
  distGt (g.x_range.1, g.y_range.1) pt s ∨ distGt (g.x_range.2, g.y_range.1) pt s ∨
    distGt (g.x_range.1, g.y_range.2) pt s ∨ distGt (g.x_range.2, g.y_range.2) pt s

instance (g : Grid α) (pt : ℚ × ℚ) (s : ℚ) : Decidable (g.cornerFar pt s) :=
  inferInstanceAs (Decidable (_ ∨ _ ∨ _ ∨ _))

/-- The `while` loop of `Grid.nearest` (locators.py lines 427-433), indexed by
fuel; for a positive resolution `Grid.nearestFuel` rounds suffice to falsify
the corner condition, which is exactly when the source loop stops. -/
def Grid.searchLoop [DecidableEq α] (g : Grid α) (pt : ℚ × ℚ) : ℕ → ℚ → ℚ
  | 0, s => s
  | fuel + 1, s =>
    if g.proximity pt s = [] ∧ g.cornerFar pt s then g.searchLoop pt fuel (2 * s)
    else s

/-- A rational bound dominating the Euclidean distances from `pt` to all four
corners of the grid rectangle. -/
def Grid.cornerBound (g : Grid α) (pt : ℚ × ℚ) : ℚ :=
  max 1 (max (sqDist (g.x_range.1, g.y_range.1) pt)
    (max (sqDist (g.x_range.2, g.y_range.1) pt)
      (max (sqDist (g.x_range.1, g.y_range.2) pt) (sqDist (g.x_range.2, g.y_range.2) pt))))

/-- Fuel sufficient for the `Grid.nearest` search loop to reach a search size
dominating every corner distance. -/
def Grid.nearestFuel (g : Grid α) (pt : ℚ × ℚ) : ℕ := (⌈g.cornerBound pt / g.res⌉).toNat

/-- The `items` accumulation of `Grid.nearest` (locators.py lines 434-440):
`(distance, item)` pairs over the bounding-box cell range.  The pairs carry
the squared distance, whose lexicographic order coincides with the order of
the source's Euclidean pairs (squaring is strictly monotone on nonnegative
distances, so both the order and the ties are the same). -/
def Grid.scanPairs (g : Grid α) (pt : ℚ × ℚ) (s : ℚ) : List (ℚ × α) :=
  (intRange (g.grid_loc (pt.1 - s, pt.2 - s)).1 (g.grid_loc (pt.1 + s, pt.2 + s)).1).flatMap
    (fun i =>
      (intRange (g.grid_loc (pt.1 - s, pt.2 - s)).2 (g.grid_loc (pt.1 + s, pt.2 + s)).2).flatMap
        (fun j =>
          ((alookup g.hash (i, j)).getD []).map (fun e => (sqDist pt e.1, e.2))))

/-- Python's `<` on `(distance, item)` tuples: lexicographic. -/
def pairLt [LinearOrder α] (a b : ℚ × α) : Prop := a.1 < b.1 ∨ (a.1 = b.1 ∧ a.2 < b.2)

instance [LinearOrder α] (a b : ℚ × α) : Decidable (pairLt a b) :=
  inferInstanceAs (Decidable (_ ∨ _))

/-- Python's `min` over a list of tuples: `none` on the empty list, otherwise
the least element (first occurrence on ties). -/
def selMin [LinearOrder α] : List (ℚ × α) → Option (ℚ × α)
  | [] => none
  | h :: t => some (t.foldl (fun best x => if pairLt x best then x else best) h)

/-- `Grid.nearest` (locators.py lines 408-443): expanding-radius search, then
`min(items)[1]`, or `None` when the final scan finds nothing. -/
def Grid.nearest [DecidableEq α] [LinearOrder α] (g : Grid α) (pt : ℚ × ℚ) : Option α :=
  match selMin (g.scanPairs pt (g.searchLoop pt (g.nearestFuel pt) g.res)) with
  | none => none
  | some m => some m.2

/-- All `(point, item)` pairs stored in the grid. -/
def Grid.items (g : Grid α) : List ((ℚ × ℚ) × α) := g.hash.flatMap (fun e => e.2)

/-- Grid invariant: distinct cell keys, extents as computed by the
constructor, and each bucket non-empty with every stored pair in bounds and
keyed by its own cell (the spec's data-model invariant, section 3). -/
def Grid.WF (g : Grid α) : Prop :=
  (g.hash.map (fun e => e.1)).Nodup ∧
  g.i_range = ⌈(g.x_range.2 - g.x_range.1) / g.res⌉ ∧
  g.j_range = ⌈(g.y_range.2 - g.y_range.1) / g.res⌉ ∧
  ∀ e ∈ g.hash, e.2 ≠ [] ∧ ∀ pr ∈ e.2, g.in_grid pr.1 ∧ g.grid_loc pr.1 = e.1

instance [DecidableEq α] (g : Grid α) : Decidable g.WF :=
  inferInstanceAs (Decidable (_ ∧ _ ∧ _ ∧ ∀ e ∈ g.hash, e.2 ≠ [] ∧
    ∀ pr ∈ e.2, g.in_grid pr.1 ∧ g.grid_loc pr.1 = e.1))

def egGrid0 : Grid ℕ :=
  { res := 1, hash := [], x_range := (0, 10), y_range := (0, 10), i_range := 10, j_range := 10 }

def egGrid1 : Grid ℕ := ((egGrid0.add 0 (1, 1)).toOption).getD egGrid0

def egGrid2 : Grid ℕ := ((egGrid1.add 1 (4, 4)).toOption).getD egGrid1

example : mkGrid ⟨0, 10, 0, 10⟩ 1 = .ok egGrid0 := by decide
example : egGrid2.bounds ⟨0, 3, 0, 3⟩ = [0] := by decide
example : egGrid2.bounds ⟨2, 5, 2, 5⟩ = [1] := by decide
example : egGrid2.bounds ⟨0, 5, 0, 5⟩ = [0, 1] := by decide
example : egGrid2.proximity (2, 1) 2 = [0] := by decide
example : egGrid2.proximity (6, 5) 3 = [1] := by decide
example : egGrid2.proximity (4, 1) 4 = [0, 1] := by decide
example : egGrid2.nearest (2, 1) = some 0 := by decide
example : egGrid2.nearest (7, 5) = some 1 := by decide
example : egGrid2.WF := by decide
example : (egGrid2.remove 0 (1, 1)).toOption.getD egGrid0 = egGrid1 → False := by decide

/-! ### Association-list lemmas -/

theorem alookup_aset_self {κ β : Type} [DecidableEq κ] :
    ∀ (h : List (κ × β)) (k : κ) (v : β), alookup (aset h k v) k = some v
  | [], k, v => by simp [aset, alookup]
  | e :: t, k, v => by
    by_cases he : e.1 = k
    · simp [aset, alookup, he]
    · simp only [aset, alookup, he, if_neg he, if_false]
      exact alookup_aset_self t k v

theorem alookup_aset_ne {κ β : Type} [DecidableEq κ] {k k' : κ} (hne : k' ≠ k) :
    ∀ (h : List (κ × β)) (v : β), alookup (aset h k v) k' = alookup h k'
  | [], v => by
    have hk : ¬ (k = k') := fun hc => hne hc.symm
    simp [aset, alookup, hk]
  | e :: t, v => by
    by_cases he : e.1 = k
    · have hk : ¬ (k = k') := fun hc => hne hc.symm
      have he' : ¬ (e.1 = k') := by rw [he]; exact hk
      rw [aset, if_pos he, alookup, alookup, if_neg hk, if_neg he']
    · rw [aset, if_neg he, alookup, alookup]
      by_cases he' : e.1 = k'
      · rw [if_pos he', if_pos he']
      · rw [if_neg he', if_neg he']
        exact alookup_aset_ne hne t v

theorem adel_aset_none {κ β : Type} [DecidableEq κ] :
    ∀ {h : List (κ × β)} {k : κ}, alookup h k = none → ∀ v, adel (aset h k v) k = h
  | [], k, _, v => by simp [aset, adel]
  | e :: t, k, hl, v => by
    by_cases he : e.1 = k
    · rw [alookup, if_pos he] at hl
      cases hl
    · rw [alookup, if_neg he] at hl
      simp only [aset, adel, if_neg he]
      rw [adel_aset_none hl v]

theorem mem_aset {κ β : Type} [DecidableEq κ] {x : κ × β} :
    ∀ {h : List (κ × β)} {k : κ} {v : β}, x ∈ aset h k v → x ∈ h ∨ x = (k, v)
  | [], k, v, hx => by
    simp only [aset] at hx
    exact Or.inr (by simpa using hx)
  | e :: t, k, v, hx => by
    by_cases he : e.1 = k
    · rw [aset, if_pos he] at hx
      rcases List.mem_cons.mp hx with rfl | hxt
      · exact Or.inr rfl
      · exact Or.inl (List.mem_cons_of_mem _ hxt)
    · rw [aset, if_neg he] at hx
      rcases List.mem_cons.mp hx with rfl | hxt
      · exact Or.inl (List.mem_cons_self _ _)
      · rcases mem_aset hxt with h1 | h1
        · exact Or.inl (List.mem_cons_of_mem _ h1)
        · exact Or.inr h1

theorem keys_mem_aset {κ β : Type} [DecidableEq κ] {x : κ} :
    ∀ {h : List (κ × β)} {k : κ} {v : β},
      x ∈ (aset h k v).map (fun e => e.1) → x ∈ h.map (fun e => e.1) ∨ x = k := by
  intro h k v hx
  rw [List.mem_map] at hx
  obtain ⟨e, he, rfl⟩ := hx
  rcases mem_aset he with h1 | h1
  · exact Or.inl (List.mem_map.mpr ⟨e, h1, rfl⟩)
  · exact Or.inr (by rw [h1])

theorem keys_aset_nodup {κ β : Type} [DecidableEq κ] :
    ∀ {h : List (κ × β)} {k : κ} {v : β},
      (h.map (fun e => e.1)).Nodup → ((aset h k v).map (fun e => e.1)).Nodup
  | [], k, v, _ => by simp [aset]
  | e :: t, k, v, hn => by
    rw [List.map_cons, List.nodup_cons] at hn
    by_cases he : e.1 = k
    · rw [aset, if_pos he, List.map_cons, List.nodup_cons]
      exact ⟨he ▸ hn.1, hn.2⟩
    · rw [aset, if_neg he, List.map_cons, List.nodup_cons]
      refine ⟨?_, keys_aset_nodup hn.2⟩
      intro hc
      rcases keys_mem_aset hc with h1 | h1
      · exact hn.1 h1
      · exact he h1

theorem adel_sublist {κ β : Type} [DecidableEq κ] :
    ∀ (h : List (κ × β)) (k : κ), List.Sublist (adel h k) h
  | [], _ => List.Sublist.refl _
  | e :: t, k => by
    by_cases he : e.1 = k
    · rw [adel, if_pos he]
      exact List.sublist_cons_self _ _
    · rw [adel, if_neg he]
      exact List.Sublist.cons₂ _ (adel_sublist t k)

theorem alookup_mem {κ β : Type} [DecidableEq κ] :
    ∀ {h : List (κ × β)} {k : κ} {b : β}, alookup h k = some b → (k, b) ∈ h
  | [], k, b, hl => by cases hl
  | e :: t, k, b, hl => by
    by_cases he : e.1 = k
    · rw [alookup, if_pos he] at hl
      injection hl with hb
      have hkb : (k, b) = e := by rw [← he, ← hb]
      rw [hkb]
      exact List.mem_cons_self _ _
    · rw [alookup, if_neg he] at hl
      exact List.mem_cons_of_mem _ (alookup_mem hl)

theorem alookup_of_mem_nodup {κ β : Type} [DecidableEq κ] :
    ∀ {h : List (κ × β)} {k : κ} {b : β},
      (h.map (fun e => e.1)).Nodup → (k, b) ∈ h → alookup h k = some b
  | [], k, b, _, hm => by cases hm
  | e :: t, k, b, hn, hm => by
    rw [List.map_cons, List.nodup_cons] at hn
    rcases List.mem_cons.mp hm with rfl | hmt
    · rw [alookup, if_pos rfl]
    · by_cases he : e.1 = k
      · exfalso
        exact hn.1 (he ▸ List.mem_map.mpr ⟨(k, b), hmt, rfl⟩)
      · rw [alookup, if_neg he]
        exact alookup_of_mem_nodup hn.2 hmt

theorem mem_items_iff {g : Grid α} {pr : (ℚ × ℚ) × α} :
    pr ∈ g.items ↔ ∃ e ∈ g.hash, pr ∈ e.2 := by
  simp [Grid.items, List.mem_flatMap]

/-! ### Cell ranges and monotonicity -/

theorem mem_intRange {a b i : ℤ} : i ∈ intRange a b ↔ a ≤ i ∧ i ≤ b := by
  simp only [intRange, List.mem_map, List.mem_range]
  constructor
  · rintro ⟨n, hn, rfl⟩
    omega
  · rintro ⟨h1, h2⟩
    exact ⟨(i - a).toNat, by omega, by omega⟩

theorem grid_loc_mono_x (g : Grid α) (hres : 0 < g.res) {a b : ℚ}
    (h : a ≤ b) (y y' : ℚ) : (g.grid_loc (a, y)).1 ≤ (g.grid_loc (b, y')).1 := by
  unfold Grid.grid_loc
  refine min_le_min (le_refl _) (max_le_max ?_ (le_refl _))
  exact Int.floor_mono ((div_le_div_right hres).mpr (by linarith))

theorem grid_loc_mono_y (g : Grid α) (hres : 0 < g.res) {a b : ℚ}
    (h : a ≤ b) (x x' : ℚ) : (g.grid_loc (x, a)).2 ≤ (g.grid_loc (x', b)).2 := by
  unfold Grid.grid_loc
  refine min_le_min (le_refl _) (max_le_max ?_ (le_refl _))
  exact Int.floor_mono ((div_le_div_right hres).mpr (by linarith))

/-! ### Bucket access and query membership -/

theorem stored_bucket_of_mem_items {g : Grid α} (hwf : g.WF) {p : ℚ × ℚ} {x : α}
    (hm : (p, x) ∈ g.items) :
    (p, x) ∈ (alookup g.hash (g.grid_loc p)).getD [] ∧ g.in_grid p := by
  obtain ⟨e, he, hpe⟩ := mem_items_iff.mp hm
  obtain ⟨hin, hcell⟩ := (hwf.2.2.2 e he).2 (p, x) hpe
  have hloc : alookup g.hash (g.grid_loc p) = some e.2 := by
    rw [hcell]
    exact alookup_of_mem_nodup hwf.1 he
  rw [hloc]
  exact ⟨hpe, hin⟩

theorem mem_items_of_bucket {g : Grid α} {k : ℤ × ℤ} {pr : (ℚ × ℚ) × α}
    (hm : pr ∈ (alookup g.hash k).getD []) : pr ∈ g.items := by
  rcases hl : alookup g.hash k with _ | b
  · rw [hl] at hm
    cases hm
  · rw [hl] at hm
    exact mem_items_iff.mpr ⟨(k, b), alookup_mem hl, hm⟩

theorem abs_bounds_of_sq_le {a r : ℚ} (h : a ^ 2 ≤ r ^ 2) (hr : 0 ≤ r) : -r ≤ a ∧ a ≤ r := by
  constructor <;> nlinarith [sq_nonneg (a + r), sq_nonneg (a - r)]

theorem coord_bounds_of_distLe {qt p : ℚ × ℚ} {rad : ℚ} (h : distLe qt p rad) :
    qt.1 - rad ≤ p.1 ∧ p.1 ≤ qt.1 + rad ∧ qt.2 - rad ≤ p.2 ∧ p.2 ≤ qt.2 + rad := by
  obtain ⟨hr, hsq⟩ := h
  unfold sqDist at hsq
  have hx : (qt.1 - p.1) ^ 2 ≤ rad ^ 2 := by nlinarith [sq_nonneg (qt.2 - p.2)]
  have hy : (qt.2 - p.2) ^ 2 ≤ rad ^ 2 := by nlinarith [sq_nonneg (qt.1 - p.1)]
  obtain ⟨ha, hb⟩ := abs_bounds_of_sq_le hx hr
  obtain ⟨hc, hd⟩ := abs_bounds_of_sq_le hy hr
  exact ⟨by linarith, by linarith, by linarith, by linarith⟩

theorem mem_bounds_of_stored (g : Grid α) (hres : 0 < g.res) {p : ℚ × ℚ} {x : α}
    (hb : (p, x) ∈ (alookup g.hash (g.grid_loc p)).getD []) (r : Rectangle)
    (h1 : r.left ≤ p.1) (h2 : p.1 ≤ r.right) (h3 : r.lower ≤ p.2) (h4 : p.2 ≤ r.upper) :
    x ∈ g.bounds r := by
  unfold Grid.bounds
  rw [List.mem_flatMap]
  refine ⟨(g.grid_loc p).1, ?_, ?_⟩
  · rw [mem_intRange]
    exact ⟨grid_loc_mono_x g hres h1 r.lower p.2, grid_loc_mono_x g hres h2 p.2 r.upper⟩
  · rw [List.mem_flatMap]
    refine ⟨(g.grid_loc p).2, ?_, ?_⟩
    · rw [mem_intRange]
      exact ⟨grid_loc_mono_y g hres h3 r.left p.1, grid_loc_mono_y g hres h4 p.1 r.right⟩
    · rw [List.mem_map]
      refine ⟨(p, x), ?_, rfl⟩
      rw [List.mem_filter]
      exact ⟨hb, by simp only [decide_eq_true_eq]; exact ⟨h1, h2, h3, h4⟩⟩

theorem mem_proximity_of_stored (g : Grid α) (hres : 0 < g.res) {p : ℚ × ℚ} {x : α}
    (hb : (p, x) ∈ (alookup g.hash (g.grid_loc p)).getD []) (qt : ℚ × ℚ) (rad : ℚ)
    (hd : distLe qt p rad) : x ∈ g.proximity qt rad := by
  obtain ⟨c1, c2, c3, c4⟩ := coord_bounds_of_distLe hd
  unfold Grid.proximity
  rw [List.mem_flatMap]
  refine ⟨(g.grid_loc p).1, ?_, ?_⟩
  · rw [mem_intRange]
    exact ⟨grid_loc_mono_x g hres (by linarith) (qt.2 - rad) p.2,
      grid_loc_mono_x g hres (by linarith) p.2 (qt.2 + rad)⟩
  · rw [List.mem_flatMap]
    refine ⟨(g.grid_loc p).2, ?_, ?_⟩
    · rw [mem_intRange]
      exact ⟨grid_loc_mono_y g hres (by linarith) (qt.1 - rad) p.1,
        grid_loc_mono_y g hres (by linarith) p.1 (qt.1 + rad)⟩
    · rw [List.mem_map]
      refine ⟨(p, x), ?_, rfl⟩
      rw [List.mem_filter]
      exact ⟨hb, by simp only [decide_eq_true_eq]; exact hd⟩

theorem mem_scanPairs_of_stored (g : Grid α) (hres : 0 < g.res) {p : ℚ × ℚ} {x : α}
    (hb : (p, x) ∈ (alookup g.hash (g.grid_loc p)).getD []) (pt : ℚ × ℚ) {s : ℚ}
    (h1 : pt.1 - s ≤ p.1) (h2 : p.1 ≤ pt.1 + s) (h3 : pt.2 - s ≤ p.2) (h4 : p.2 ≤ pt.2 + s) :
    (sqDist pt p, x) ∈ g.scanPairs pt s := by
  unfold Grid.scanPairs
  rw [List.mem_flatMap]
  refine ⟨(g.grid_loc p).1, ?_, ?_⟩
  · rw [mem_intRange]
    exact ⟨grid_loc_mono_x g hres h1 (pt.2 - s) p.2, grid_loc_mono_x g hres h2 p.2 (pt.2 + s)⟩
  · rw [List.mem_flatMap]
    refine ⟨(g.grid_loc p).2, ?_, ?_⟩
    · rw [mem_intRange]
      exact ⟨grid_loc_mono_y g hres h3 (pt.1 - s) p.1, grid_loc_mono_y g hres h4 p.1 (pt.1 + s)⟩
    · rw [List.mem_map]
      exact ⟨(p, x), hb, rfl⟩

theorem scanPairs_sound {g : Grid α} {pt : ℚ × ℚ} {s : ℚ} {pr : ℚ × α}
    (h : pr ∈ g.scanPairs pt s) : ∃ e ∈ g.items, pr = (sqDist pt e.1, e.2) := by
  unfold Grid.scanPairs at h
  rw [List.mem_flatMap] at h
  obtain ⟨i, _, h⟩ := h
  rw [List.mem_flatMap] at h
  obtain ⟨j, _, h⟩ := h
  rw [List.mem_map] at h
  obtain ⟨e, he, rfl⟩ := h
  exact ⟨e, mem_items_of_bucket he, rfl⟩

theorem proximity_sound {g : Grid α} {pt : ℚ × ℚ} {rad : ℚ} {x : α}
    (h : x ∈ g.proximity pt rad) : ∃ pr ∈ g.items, distLe pt pr.1 rad ∧ pr.2 = x := by
  unfold Grid.proximity at h
  rw [List.mem_flatMap] at h
  obtain ⟨i, _, h⟩ := h
  rw [List.mem_flatMap] at h
  obtain ⟨j, _, h⟩ := h
  rw [List.mem_map] at h
  obtain ⟨e, he, rfl⟩ := h
  rw [List.mem_filter] at he
  refine ⟨e, mem_items_of_bucket he.1, ?_, rfl⟩
  have := he.2
  simpa using this

/-! ### Claim C5 -/

def egGridNeg : Grid ℕ :=
  { res := -1, hash := [], x_range := (0, 10), y_range := (0, 10),
    i_range := -10, j_range := -10 }

/-- C5 counterexample: `Grid.__init__` only rejects a resolution equal to
zero, so the strictly negative resolution `-1` is accepted and no
`InvalidResolution` error is raised. -/
theorem grid_negative_resolution_counterexample :
    (-1 : ℚ) ≤ 0 ∧ mkGrid ⟨0, 10, 0, 10⟩ (-1) = .ok egGridNeg :=
  ⟨by norm_num, by decide⟩

/-- C5 amended: constructing a grid fails with the `InvalidResolution` error
exactly when the resolution equals zero; nonzero (including negative)
resolutions are accepted. -/
theorem grid_resolution_zero_only (bounds : Rectangle) (resolution : ℚ) :
    (mkGrid bounds resolution : Except String (Grid α)) = .error "InvalidResolution" ↔
      resolution = 0 := by
  unfold mkGrid
  by_cases h : resolution = 0
  · rw [if_pos h]
    simp [h]
  · rw [if_neg h]
    simp [h]

/-! ### Claim C7 -/

theorem wf_add {g : Grid α} (hwf : g.WF) {x : α} {p : ℚ × ℚ} {g' : Grid α}
    (h : g.add x p = .ok g') : g'.WF := by
  unfold Grid.add at h
  by_cases hin : g.in_grid p
  · rw [if_neg (not_not_intro hin)] at h
    rcases hl : alookup g.hash (g.grid_loc p) with _ | bucket
    · rw [hl] at h
      injection h with h'
      subst h'
      refine ⟨keys_aset_nodup hwf.1, hwf.2.1, hwf.2.2.1, ?_⟩
      intro e he
      rcases mem_aset he with hmem | rfl
      · exact hwf.2.2.2 e hmem
      · refine ⟨List.cons_ne_nil _ _, ?_⟩
        intro pr hpr
        rcases List.mem_cons.mp hpr with rfl | hc
        · exact ⟨hin, rfl⟩
        · cases hc
    · rw [hl] at h
      injection h with h'
      subst h'
      refine ⟨keys_aset_nodup hwf.1, hwf.2.1, hwf.2.2.1, ?_⟩
      intro e he
      rcases mem_aset he with hmem | rfl
      · exact hwf.2.2.2 e hmem
      · refine ⟨by simp, ?_⟩
        intro pr hpr
        rcases List.mem_append.mp hpr with hc | hc
        · exact (hwf.2.2.2 _ (alookup_mem hl)).2 pr hc
        · rcases List.mem_cons.mp hc with rfl | hc'
          · exact ⟨hin, rfl⟩
          · cases hc'
  · rw [if_pos hin] at h
    cases h

theorem wf_remove [DecidableEq α] {g : Grid α} (hwf : g.WF) {x : α} {p : ℚ × ℚ}
    {g' : Grid α} (h : g.remove x p = .ok g') : g'.WF := by
  unfold Grid.remove at h
  by_cases hin : g.in_grid p
  · rw [if_neg (not_not_intro hin)] at h
    rcases hl : alookup g.hash (g.grid_loc p) with _ | bucket
    · rw [hl] at h
      cases h
    · rw [hl] at h
      dsimp only at h
      by_cases hmem : (p, x) ∈ bucket
      · rw [if_pos hmem] at h
        by_cases hnil : bucket.erase (p, x) = []
        · rw [if_pos hnil] at h
          injection h with h'
          subst h'
          refine ⟨(List.Sublist.map _ (adel_sublist _ _)).nodup hwf.1,
            hwf.2.1, hwf.2.2.1, ?_⟩
          intro e he
          exact hwf.2.2.2 e ((adel_sublist _ _).subset he)
        · rw [if_neg hnil] at h
          injection h with h'
          subst h'
          refine ⟨keys_aset_nodup hwf.1, hwf.2.1, hwf.2.2.1, ?_⟩
          intro e he
          rcases mem_aset he with hm | rfl
          · exact hwf.2.2.2 e hm
          · refine ⟨hnil, ?_⟩
            intro pr hpr
            exact (hwf.2.2.2 _ (alookup_mem hl)).2 pr
              ((List.erase_sublist _ _).subset hpr)
      · rw [if_neg hmem] at h
        cases h
  · rw [if_pos hin] at h
    cases h

/-- C7: starting from a well-formed grid, `add` and `remove` preserve the
invariant that every `(point, item)` pair stored under cell `(i, j)` has
`grid_loc point = (i, j)` and an in-bounds point (together with the key
uniqueness and extent bookkeeping of `Grid.WF`); with an out-of-bounds point
both operations fail with the `OutOfBounds` error and, the embedding being
functional, produce no new grid. -/
theorem grid_invariant_preserved [DecidableEq α] (g : Grid α) (hwf : g.WF) :
    (∀ (x : α) (p : ℚ × ℚ) (g' : Grid α), g.add x p = .ok g' → g'.WF) ∧
      (∀ (x : α) (p : ℚ × ℚ) (g' : Grid α), g.remove x p = .ok g' → g'.WF) ∧
      (∀ (x : α) (p : ℚ × ℚ), ¬ g.in_grid p →
        g.add x p = .error "OutOfBounds" ∧ g.remove x p = .error "OutOfBounds") := by
  refine ⟨fun x p g' h => wf_add hwf h, fun x p g' h => wf_remove hwf h, ?_⟩
  intro x p hout
  constructor
  · unfold Grid.add
    rw [if_pos hout]
  · unfold Grid.remove
    rw [if_pos hout]

theorem grid_invariant_preserved_witness :
    egGrid2.WF ∧
      ((∀ (x : ℕ) (p : ℚ × ℚ) (g' : Grid ℕ), egGrid2.add x p = .ok g' → g'.WF) ∧
        (∀ (x : ℕ) (p : ℚ × ℚ) (g' : Grid ℕ), egGrid2.remove x p = .ok g' → g'.WF) ∧
        (∀ (x : ℕ) (p : ℚ × ℚ), ¬ egGrid2.in_grid p →
          egGrid2.add x p = .error "OutOfBounds" ∧
            egGrid2.remove x p = .error "OutOfBounds")) :=
  ⟨by decide, grid_invariant_preserved egGrid2 (by decide)⟩

/-! ### Lexicographic minimum (Python `min` over tuples) -/

theorem pairLt_irrefl [LinearOrder α] (a : ℚ × α) : ¬ pairLt a a := by
  rintro (h | ⟨_, h⟩) <;> exact lt_irrefl _ h

theorem pairLt_trans [LinearOrder α] {a b c : ℚ × α}
    (h1 : pairLt a b) (h2 : pairLt b c) : pairLt a c := by
  rcases h1 with h1 | ⟨e1, h1⟩ <;> rcases h2 with h2 | ⟨e2, h2⟩
  · exact Or.inl (lt_trans h1 h2)
  · exact Or.inl (by rw [← e2]; exact h1)
  · exact Or.inl (by rw [e1]; exact h2)
  · exact Or.inr ⟨e1.trans e2, lt_trans h1 h2⟩

theorem pairLt_of_not_of_lt [LinearOrder α] {h a r : ℚ × α}
    (h1 : ¬ pairLt a h) (h2 : pairLt a r) : pairLt h r := by
  rw [pairLt, not_or] at h1
  obtain ⟨hn1, hn2⟩ := h1
  have hle : h.1 ≤ a.1 := not_lt.mp hn1
  rcases h2 with h2 | ⟨e2, h2⟩
  · exact Or.inl (lt_of_le_of_lt hle h2)
  · rcases lt_or_eq_of_le hle with hlt | heq
    · exact Or.inl (by rw [← e2]; exact hlt)
    · have hae : a.1 = h.1 := heq.symm
      have h22 : ¬ a.2 < h.2 := fun hc => hn2 ⟨hae, hc⟩
      exact Or.inr ⟨heq.trans e2, lt_of_le_of_lt (not_lt.mp h22) h2⟩

theorem pairLt_or_eq_or [LinearOrder α] (a b : ℚ × α) : pairLt a b ∨ a = b ∨ pairLt b a := by
  rcases lt_trichotomy a.1 b.1 with h | h | h
  · exact Or.inl (Or.inl h)
  · rcases lt_trichotomy a.2 b.2 with h2 | h2 | h2
    · exact Or.inl (Or.inr ⟨h, h2⟩)
    · exact Or.inr (Or.inl (Prod.ext h h2))
    · exact Or.inr (Or.inr (Or.inr ⟨h.symm, h2⟩))
  · exact Or.inr (Or.inr (Or.inl h))

theorem foldlMin_mem [LinearOrder α] :
    ∀ (t : List (ℚ × α)) (h : ℚ × α),
      t.foldl (fun best x => if pairLt x best then x else best) h ∈ h :: t
  | [], h => List.mem_cons_self _ _
  | a :: t, h => by
    rw [List.foldl_cons]
    have hm := foldlMin_mem t (if pairLt a h then a else h)
    rcases List.mem_cons.mp hm with heq | hmem
    · rw [heq]
      by_cases hc : pairLt a h
      · rw [if_pos hc]
        exact List.mem_cons_of_mem _ (List.mem_cons_self _ _)
      · rw [if_neg hc]
        exact List.mem_cons_self _ _
    · exact List.mem_cons_of_mem _ (List.mem_cons_of_mem _ hmem)

theorem foldlMin_not_lt [LinearOrder α] :
    ∀ (t : List (ℚ × α)) (h y : ℚ × α), y ∈ h :: t →
      ¬ pairLt y (t.foldl (fun best x => if pairLt x best then x else best) h)
  | [], h, y, hy => by
    rcases List.mem_cons.mp hy with rfl | hc
    · exact pairLt_irrefl y
    · cases hc
  | a :: t, h, y, hy => by
    rw [List.foldl_cons]
    rcases List.mem_cons.mp hy with rfl | hy'
    · by_cases hc : pairLt a y
      · intro hcon
        rw [if_pos hc] at hcon
        exact foldlMin_not_lt t a a (List.mem_cons_self _ _) (pairLt_trans hc hcon)
      · rw [if_neg hc]
        exact foldlMin_not_lt t y y (List.mem_cons_self _ _)
    · rcases List.mem_cons.mp hy' with rfl | hyt
      · by_cases hc : pairLt y h
        · rw [if_pos hc]
          exact foldlMin_not_lt t y y (List.mem_cons_self _ _)
        · intro hcon
          rw [if_neg hc] at hcon
          exact foldlMin_not_lt t h h (List.mem_cons_self _ _) (pairLt_of_not_of_lt hc hcon)
      · by_cases hc : pairLt a h
        · rw [if_pos hc]
          exact foldlMin_not_lt t a y (List.mem_cons_of_mem _ hyt)
        · rw [if_neg hc]
          exact foldlMin_not_lt t h y (List.mem_cons_of_mem _ hyt)

theorem selMin_eq_none [LinearOrder α] {l : List (ℚ × α)} : selMin l = none ↔ l = [] := by
  cases l <;> simp [selMin]

theorem selMin_mem [LinearOrder α] {l : List (ℚ × α)} {m : ℚ × α}
    (h : selMin l = some m) : m ∈ l := by
  cases l with
  | nil => cases h
  | cons a t =>
    rw [selMin] at h
    injection h with h'
    rw [← h']
    exact foldlMin_mem t a

theorem selMin_not_lt [LinearOrder α] {l : List (ℚ × α)} {m : ℚ × α}
    (h : selMin l = some m) : ∀ y ∈ l, ¬ pairLt y m := by
  cases l with
  | nil => cases h
  | cons a t =>
    rw [selMin] at h
    injection h with h'
    rw [← h']
    exact fun y hy => foldlMin_not_lt t a y hy

theorem selMin_perm [LinearOrder α] {l l' : List (ℚ × α)} (hp : l.Perm l') :
    selMin l = selMin l' := by
  rcases hl : selMin l with _ | m
  · have h0 : l = [] := selMin_eq_none.mp hl
    subst h0
    have h1 : l' = [] := hp.symm.eq_nil
    subst h1
    rfl
  · rcases hl' : selMin l' with _ | m'
    · have h0 : l' = [] := selMin_eq_none.mp hl'
      subst h0
      rw [selMin_eq_none.mpr hp.eq_nil] at hl
      cases hl
    · have h1 : ¬ pairLt m' m := selMin_not_lt hl m' (hp.mem_iff.mpr (selMin_mem hl'))
      have h2 : ¬ pairLt m m' := selMin_not_lt hl' m (hp.mem_iff.mp (selMin_mem hl))
      rcases pairLt_or_eq_or m m' with hc | hc | hc
      · exact absurd hc h2
      · rw [hc]
      · exact absurd hc h1

/-! ### Claim C6 -/

theorem flatMap_perm {β γ : Type} {f f' : β → List γ} :
    ∀ {l : List β}, (∀ a ∈ l, (f a).Perm (f' a)) → (l.flatMap f).Perm (l.flatMap f')
  | [], _ => List.Perm.refl _
  | a :: t, h => by
    rw [List.flatMap_cons, List.flatMap_cons]
    exact (h a (List.mem_cons_self _ _)).append
      (flatMap_perm (fun b hb => h b (List.mem_cons_of_mem _ hb)))

theorem grid_loc_congr {g g' : Grid α} (hres : g'.res = g.res) (hx : g'.x_range = g.x_range)
    (hy : g'.y_range = g.y_range) (hi : g'.i_range = g.i_range) (hj : g'.j_range = g.j_range)
    (q : ℚ × ℚ) : g'.grid_loc q = g.grid_loc q := by
  unfold Grid.grid_loc
  rw [hres, hx, hy, hi, hj]

theorem bounds_perm {g g' : Grid α} (hres : g'.res = g.res) (hx : g'.x_range = g.x_range)
    (hy : g'.y_range = g.y_range) (hi : g'.i_range = g.i_range) (hj : g'.j_range = g.j_range)
    (hbuck : ∀ k, ((alookup g'.hash k).getD []).Perm ((alookup g.hash k).getD []))
    (r : Rectangle) : (g'.bounds r).Perm (g.bounds r) := by
  unfold Grid.bounds
  rw [grid_loc_congr hres hx hy hi hj, grid_loc_congr hres hx hy hi hj]
  refine flatMap_perm (fun i _ => flatMap_perm (fun j _ => ?_))
  exact ((hbuck (i, j)).filter _).map _

theorem proximity_perm {g g' : Grid α} (hres : g'.res = g.res) (hx : g'.x_range = g.x_range)
    (hy : g'.y_range = g.y_range) (hi : g'.i_range = g.i_range) (hj : g'.j_range = g.j_range)
    (hbuck : ∀ k, ((alookup g'.hash k).getD []).Perm ((alookup g.hash k).getD []))
    (pt : ℚ × ℚ) (rad : ℚ) : (g'.proximity pt rad).Perm (g.proximity pt rad) := by
  unfold Grid.proximity
  rw [grid_loc_congr hres hx hy hi hj, grid_loc_congr hres hx hy hi hj]
  refine flatMap_perm (fun i _ => flatMap_perm (fun j _ => ?_))
  exact ((hbuck (i, j)).filter _).map _

theorem scanPairs_perm {g g' : Grid α} (hres : g'.res = g.res) (hx : g'.x_range = g.x_range)
    (hy : g'.y_range = g.y_range) (hi : g'.i_range = g.i_range) (hj : g'.j_range = g.j_range)
    (hbuck : ∀ k, ((alookup g'.hash k).getD []).Perm ((alookup g.hash k).getD []))
    (pt : ℚ × ℚ) (s : ℚ) : (g'.scanPairs pt s).Perm (g.scanPairs pt s) := by
  unfold Grid.scanPairs
  rw [grid_loc_congr hres hx hy hi hj, grid_loc_congr hres hx hy hi hj]
  refine flatMap_perm (fun i _ => flatMap_perm (fun j _ => ?_))
  exact (hbuck (i, j)).map _

theorem cornerFar_congr {g g' : Grid α} (hx : g'.x_range = g.x_range)
    (hy : g'.y_range = g.y_range) (pt : ℚ × ℚ) (s : ℚ) :
    g'.cornerFar pt s ↔ g.cornerFar pt s := by
  unfold Grid.cornerFar
  rw [hx, hy]

theorem searchLoop_congr [DecidableEq α] {g g' : Grid α} (hres : g'.res = g.res)
    (hx : g'.x_range = g.x_range) (hy : g'.y_range = g.y_range) (hi : g'.i_range = g.i_range)
    (hj : g'.j_range = g.j_range)
    (hbuck : ∀ k, ((alookup g'.hash k).getD []).Perm ((alookup g.hash k).getD []))
    (pt : ℚ × ℚ) : ∀ (fuel : ℕ) (s : ℚ), g'.searchLoop pt fuel s = g.searchLoop pt fuel s
  | 0, s => rfl
  | fuel + 1, s => by
    rw [Grid.searchLoop, Grid.searchLoop]
    have hpp := proximity_perm hres hx hy hi hj hbuck pt s
    have hcond : (g'.proximity pt s = [] ∧ g'.cornerFar pt s) ↔
        (g.proximity pt s = [] ∧ g.cornerFar pt s) := by
      constructor
      · rintro ⟨h1, h2⟩
        exact ⟨(h1 ▸ hpp.symm).eq_nil, (cornerFar_congr hx hy pt s).mp h2⟩
      · rintro ⟨h1, h2⟩
        exact ⟨(h1 ▸ hpp).eq_nil, (cornerFar_congr hx hy pt s).mpr h2⟩
    by_cases hc : g.proximity pt s = [] ∧ g.cornerFar pt s
    · rw [if_pos hc, if_pos (hcond.mpr hc)]
      exact searchLoop_congr hres hx hy hi hj hbuck pt fuel (2 * s)
    · rw [if_neg hc, if_neg (fun hcon => hc (hcond.mp hcon))]

theorem nearest_congr [DecidableEq α] [LinearOrder α] {g g' : Grid α} (hres : g'.res = g.res)
    (hx : g'.x_range = g.x_range) (hy : g'.y_range = g.y_range) (hi : g'.i_range = g.i_range)
    (hj : g'.j_range = g.j_range)
    (hbuck : ∀ k, ((alookup g'.hash k).getD []).Perm ((alookup g.hash k).getD []))
    (pt : ℚ × ℚ) : g'.nearest pt = g.nearest pt := by
  unfold Grid.nearest
  have hfuel : g'.nearestFuel pt = g.nearestFuel pt := by
    unfold Grid.nearestFuel Grid.cornerBound
    rw [hres, hx, hy]
  rw [hfuel, hres, searchLoop_congr hres hx hy hi hj hbuck pt (g.nearestFuel pt) g.res,
    selMin_perm (scanPairs_perm hres hx hy hi hj hbuck pt _)]

theorem perm_cons_erase_pair [DecidableEq α] {a : (ℚ × ℚ) × α} :
    ∀ {l : List ((ℚ × ℚ) × α)}, a ∈ l → l.Perm (a :: l.erase a)
  | b :: t, hm => by
    rw [List.erase_cons]
    by_cases hb : b = a
    · subst hb
      rw [if_pos (beq_self_eq_true b)]
    · rw [if_neg (fun hc => hb (beq_iff_eq.mp hc))]
      have hat : a ∈ t := by
        rcases List.mem_cons.mp hm with h | h
        · exact absurd h.symm hb
        · exact h
      exact ((perm_cons_erase_pair hat).cons b).trans (List.Perm.swap _ _ _)

theorem add_eval_none (g : Grid α) (x : α) (p : ℚ × ℚ) (hin : g.in_grid p)
    (hl : alookup g.hash (g.grid_loc p) = none) :
    g.add x p = .ok { g with hash := aset g.hash (g.grid_loc p) [(p, x)] } := by
  unfold Grid.add
  rw [if_neg (not_not_intro hin), hl]

theorem add_eval_some (g : Grid α) (x : α) (p : ℚ × ℚ) (hin : g.in_grid p)
    {b : List ((ℚ × ℚ) × α)} (hl : alookup g.hash (g.grid_loc p) = some b) :
    g.add x p = .ok { g with hash := aset g.hash (g.grid_loc p) (b ++ [(p, x)]) } := by
  unfold Grid.add
  rw [if_neg (not_not_intro hin), hl]

theorem remove_eval [DecidableEq α] (g : Grid α) (x : α) (p : ℚ × ℚ) (hin : g.in_grid p)
    (b : List ((ℚ × ℚ) × α)) (hl : alookup g.hash (g.grid_loc p) = some b)
    (hmem : (p, x) ∈ b) :
    g.remove x p = .ok { g with hash :=
      (if b.erase (p, x) = [] then adel g.hash (g.grid_loc p)
        else aset g.hash (g.grid_loc p) (b.erase (p, x))) } := by
  unfold Grid.remove
  rw [if_neg (not_not_intro hin), hl]
  dsimp only
  rw [if_pos hmem]

/-- C6: adding an item at an in-bounds point and then removing it leaves the
grid's observable query results (region, proximity, and nearest) identical,
as multisets, to the pre-add state.  The only structural hypothesis is the
reachable-state fact that no stored bucket is empty. -/
theorem grid_add_remove_roundtrip [DecidableEq α] [LinearOrder α] (g : Grid α) (x : α)
    (p : ℚ × ℚ) (hb : ∀ e ∈ g.hash, e.2 ≠ []) (hin : g.in_grid p) :
    ∃ g1 g2, g.add x p = .ok g1 ∧ g1.remove x p = .ok g2 ∧
      (∀ r, (g2.bounds r).Perm (g.bounds r)) ∧
      (∀ (q : ℚ × ℚ) (rad : ℚ), (g2.proximity q rad).Perm (g.proximity q rad)) ∧
      (∀ q : ℚ × ℚ, g2.nearest q = g.nearest q) := by
  rcases hlook : alookup g.hash (g.grid_loc p) with _ | b0
  · refine ⟨{ g with hash := aset g.hash (g.grid_loc p) [(p, x)] }, g,
      add_eval_none g x p hin hlook, ?_, fun r => List.Perm.refl _,
      fun q rad => List.Perm.refl _, fun q => rfl⟩
    have hrm := remove_eval { g with hash := aset g.hash (g.grid_loc p) [(p, x)] } x p hin
      [(p, x)] (alookup_aset_self _ _ _) (List.mem_singleton.mpr rfl)
    rw [hrm, List.erase_cons_head, if_pos rfl]
    refine congrArg Except.ok ?_
    show ({ g with hash := adel (aset g.hash (g.grid_loc p) [(p, x)]) (g.grid_loc p) } :
      Grid α) = g
    rw [adel_aset_none hlook]
  · have hb0 : b0 ≠ [] := hb (g.grid_loc p, b0) (alookup_mem hlook)
    have hbmm : (p, x) ∈ b0 ++ [(p, x)] :=
      List.mem_append.mpr (Or.inr (List.mem_singleton.mpr rfl))
    have hbperm : ((b0 ++ [(p, x)]).erase (p, x)).Perm b0 := by
      by_cases hpx : (p, x) ∈ b0
      · rw [List.erase_append_left _ hpx]
        exact (List.perm_append_singleton _ _).trans (perm_cons_erase_pair hpx).symm
      · rw [List.erase_append_right _ hpx, List.erase_cons_head, List.append_nil]
    have hbne : (b0 ++ [(p, x)]).erase (p, x) ≠ [] := by
      intro hc
      rw [hc] at hbperm
      exact hb0 hbperm.symm.eq_nil
    have hbuck : ∀ k,
        ((alookup (aset (aset g.hash (g.grid_loc p) (b0 ++ [(p, x)])) (g.grid_loc p)
          ((b0 ++ [(p, x)]).erase (p, x))) k).getD []).Perm
          ((alookup g.hash k).getD []) := by
      intro k
      by_cases hk : k = g.grid_loc p
      · subst hk
        rw [alookup_aset_self, hlook]
        exact hbperm
      · rw [alookup_aset_ne hk, alookup_aset_ne hk]
    refine ⟨{ g with hash := aset g.hash (g.grid_loc p) (b0 ++ [(p, x)]) },
      { g with hash := (aset (aset g.hash (g.grid_loc p) (b0 ++ [(p, x)])) (g.grid_loc p)
        ((b0 ++ [(p, x)]).erase (p, x))) },
      add_eval_some g x p hin hlook, ?_,
      fun r => @bounds_perm _ g { g with hash := (aset (aset g.hash (g.grid_loc p)
          (b0 ++ [(p, x)])) (g.grid_loc p) ((b0 ++ [(p, x)]).erase (p, x))) }
        rfl rfl rfl rfl rfl hbuck r,
      fun q rad => @proximity_perm _ g { g with hash := (aset (aset g.hash (g.grid_loc p)
          (b0 ++ [(p, x)])) (g.grid_loc p) ((b0 ++ [(p, x)]).erase (p, x))) }
        rfl rfl rfl rfl rfl hbuck q rad,
      fun q => @nearest_congr _ _ _ g { g with hash := (aset (aset g.hash (g.grid_loc p)
          (b0 ++ [(p, x)])) (g.grid_loc p) ((b0 ++ [(p, x)]).erase (p, x))) }
        rfl rfl rfl rfl rfl hbuck q⟩
    have hrm := remove_eval { g with hash := aset g.hash (g.grid_loc p) (b0 ++ [(p, x)]) }
      x p hin (b0 ++ [(p, x)]) (alookup_aset_self _ _ _) hbmm
    rw [hrm, if_neg hbne]
    rfl

theorem grid_add_remove_roundtrip_witness :
    (∀ e ∈ egGrid2.hash, e.2 ≠ []) ∧ egGrid2.in_grid (3, 7) ∧
      ∃ g1 g2, egGrid2.add 9 (3, 7) = .ok g1 ∧ g1.remove 9 (3, 7) = .ok g2 ∧
        (∀ r, (g2.bounds r).Perm (egGrid2.bounds r)) ∧
        (∀ (q : ℚ × ℚ) (rad : ℚ), (g2.proximity q rad).Perm (egGrid2.proximity q rad)) ∧
        (∀ q : ℚ × ℚ, g2.nearest q = egGrid2.nearest q) :=
  ⟨by decide, by decide, grid_add_remove_roundtrip egGrid2 9 (3, 7) (by decide) (by decide)⟩

/-! ### Claim C10 -/

theorem aset_not_found {κ β : Type} [DecidableEq κ] :
    ∀ {h : List (κ × β)} {k : κ}, alookup h k = none → ∀ v, aset h k v = h ++ [(k, v)]
  | [], _, _, v => rfl
  | e :: t, k, hl, v => by
    by_cases he : e.1 = k
    · rw [alookup, if_pos he] at hl
      cases hl
    · rw [alookup, if_neg he] at hl
      rw [aset, if_neg he, aset_not_found hl v, List.cons_append]

theorem alookup_split {κ β : Type} [DecidableEq κ] :
    ∀ {h : List (κ × β)} {k : κ} {b : β}, alookup h k = some b →
      ∃ l r, h = l ++ (k, b) :: r ∧ (∀ b', aset h k b' = l ++ (k, b') :: r) ∧
        adel h k = l ++ r
  | [], _, _, hl => by cases hl
  | e :: t, k, b, hl => by
    by_cases he : e.1 = k
    · rw [alookup, if_pos he] at hl
      injection hl with hb
      refine ⟨[], t, ?_, ?_, ?_⟩
      · rw [List.nil_append]
        congr 1
        exact Prod.ext he hb
      · intro b'
        rw [aset, if_pos he, List.nil_append]
      · rw [adel, if_pos he, List.nil_append]
    · rw [alookup, if_neg he] at hl
      obtain ⟨l, r, h1, h2, h3⟩ := alookup_split hl
      refine ⟨e :: l, r, ?_, ?_, ?_⟩
      · rw [List.cons_append, ← h1]
      · intro b'
        rw [aset, if_neg he, h2 b', List.cons_append]
      · rw [adel, if_neg he, h3, List.cons_append]

/-- A successful `add` prepends, up to permutation, exactly one copy of the
new `(point, item)` pair to the stored items. -/
theorem items_add {g g' : Grid α} {x : α} {p : ℚ × ℚ} (h : g.add x p = .ok g') :
    g'.items.Perm ((p, x) :: g.items) := by
  unfold Grid.add at h
  by_cases hin : g.in_grid p
  · rw [if_neg (not_not_intro hin)] at h
    rcases hl : alookup g.hash (g.grid_loc p) with _ | b
    · rw [hl] at h
      injection h with h'
      subst h'
      unfold Grid.items
      dsimp only
      rw [aset_not_found hl, List.flatMap_append]
      simp only [List.flatMap_cons, List.flatMap_nil, List.append_nil]
      exact List.perm_append_singleton _ _
    · rw [hl] at h
      injection h with h'
      subst h'
      obtain ⟨l, r, h1, h2, _⟩ := alookup_split hl
      unfold Grid.items
      dsimp only
      rw [h2 (b ++ [(p, x)])]
      conv_rhs => rw [h1]
      simp only [List.flatMap_append, List.flatMap_cons]
      have e1 : (l.flatMap fun e => e.2) ++ ((b ++ [(p, x)]) ++ r.flatMap fun e => e.2) =
          ((l.flatMap fun e => e.2) ++ b) ++ (p, x) :: r.flatMap fun e => e.2 := by
        simp [List.append_assoc]
      have e2 : (l.flatMap fun e => e.2) ++ (b ++ r.flatMap fun e => e.2) =
          ((l.flatMap fun e => e.2) ++ b) ++ r.flatMap fun e => e.2 := by
        rw [List.append_assoc]
      rw [e1, e2]
      exact List.perm_middle
  · rw [if_pos hin] at h
    cases h

/-- A successful `remove` deletes, up to permutation, exactly one copy of the
`(point, item)` pair from the stored items. -/
theorem items_remove [DecidableEq α] {g g' : Grid α} {x : α} {p : ℚ × ℚ}
    (h : g.remove x p = .ok g') : g.items.Perm ((p, x) :: g'.items) := by
  unfold Grid.remove at h
  by_cases hin : g.in_grid p
  · rw [if_neg (not_not_intro hin)] at h
    rcases hl : alookup g.hash (g.grid_loc p) with _ | b
    · rw [hl] at h
      cases h
    · rw [hl] at h
      dsimp only at h
      by_cases hmem : (p, x) ∈ b
      · rw [if_pos hmem] at h
        obtain ⟨l, r, h1, h2, h3⟩ := alookup_split hl
        by_cases hnil : b.erase (p, x) = []
        · rw [if_pos hnil] at h
          injection h with h'
          subst h'
          have hb : b = [(p, x)] := by
            cases b with
            | nil => cases hmem
            | cons c t =>
              rw [List.erase_cons] at hnil
              by_cases hc : c = (p, x)
              · rw [if_pos (by rw [hc]; exact beq_self_eq_true _)] at hnil
                rw [hc, hnil]
              · rw [if_neg (fun hcc => hc (beq_iff_eq.mp hcc))] at hnil
                cases hnil
          subst hb
          unfold Grid.items
          dsimp only
          rw [h3]
          conv_lhs => rw [h1]
          simp only [List.flatMap_append, List.flatMap_cons]
          exact List.perm_middle
        · rw [if_neg hnil] at h
          injection h with h'
          subst h'
          unfold Grid.items
          dsimp only
          rw [h2 (b.erase (p, x))]
          conv_lhs => rw [h1]
          simp only [List.flatMap_append, List.flatMap_cons]
          have hbp : b.Perm ((p, x) :: b.erase (p, x)) := perm_cons_erase_pair hmem
          refine ((hbp.append_right _).append_left _).trans ?_
          exact List.perm_middle
      · rw [if_neg hmem] at h
        cases h
  · rw [if_pos hin] at h
    cases h

/-- The number of copies of a `(point, item)` pair in an item list. -/
def pairCount [DecidableEq α] (pr : (ℚ × ℚ) × α) (l : List ((ℚ × ℚ) × α)) : ℕ :=
  l.countP (fun e => decide (e = pr))

theorem pairCount_perm [DecidableEq α] {pr : (ℚ × ℚ) × α} {l l' : List ((ℚ × ℚ) × α)}
    (h : l.Perm l') : pairCount pr l = pairCount pr l' :=
  h.countP_eq _

theorem pairCount_cons_self [DecidableEq α] (pr : (ℚ × ℚ) × α) (l : List ((ℚ × ℚ) × α)) :
    pairCount pr (pr :: l) = pairCount pr l + 1 := by
  simp [pairCount, List.countP_cons]

theorem add_eval_getD (g : Grid α) (x : α) (p : ℚ × ℚ) (hin : g.in_grid p) :
    g.add x p = .ok { g with hash := (aset g.hash (g.grid_loc p)
      ((alookup g.hash (g.grid_loc p)).getD [] ++ [(p, x)])) } := by
  unfold Grid.add
  rw [if_neg (not_not_intro hin)]
  rcases hl : alookup g.hash (g.grid_loc p) with _ | b
  · rfl
  · rfl

/-- C10: the grid stores duplicate entries: two successive `add`s of the same
item at the same in-bounds point store two copies of the `(point, item)`
pair, and a single `remove` deletes exactly one of them, so the pair is
still found by the region and proximity queries afterwards. -/
theorem grid_duplicate_storage [DecidableEq α] (g : Grid α) (x : α) (p : ℚ × ℚ)
    (hres : 0 < g.res) (hin : g.in_grid p) (r : Rectangle)
    (h1 : r.left ≤ p.1) (h2 : p.1 ≤ r.right) (h3 : r.lower ≤ p.2) (h4 : p.2 ≤ r.upper)
    (qt : ℚ × ℚ) (rad : ℚ) (hd : distLe qt p rad) :
    ∃ g1 g2 g3, g.add x p = .ok g1 ∧ g1.add x p = .ok g2 ∧ g2.remove x p = .ok g3 ∧
      pairCount (p, x) g2.items = pairCount (p, x) g.items + 2 ∧
      pairCount (p, x) g3.items = pairCount (p, x) g.items + 1 ∧
      x ∈ g3.bounds r ∧ x ∈ g3.proximity qt rad := by
  have hmm1 : (p, x) ∈ (alookup g.hash (g.grid_loc p)).getD [] ++ [(p, x)] :=
    List.mem_append_right _ (List.mem_singleton.mpr rfl)
  have hmm2 : (p, x) ∈ ((alookup g.hash (g.grid_loc p)).getD [] ++ [(p, x)]) ++ [(p, x)] :=
    List.mem_append_right _ (List.mem_singleton.mpr rfl)
  have hne : (((alookup g.hash (g.grid_loc p)).getD [] ++ [(p, x)]) ++ [(p, x)]).erase (p, x) ≠ [] := by
    rw [List.erase_append_left _ hmm1]
    simp
  have hadd1 : g.add x p = .ok { g with hash := (aset g.hash (g.grid_loc p) ((alookup g.hash (g.grid_loc p)).getD [] ++ [(p, x)])) } := add_eval_getD g x p hin
  have hadd2 : ({ g with hash := (aset g.hash (g.grid_loc p) ((alookup g.hash (g.grid_loc p)).getD [] ++ [(p, x)])) } : Grid α).add x p = .ok { g with hash := (aset (aset g.hash (g.grid_loc p) ((alookup g.hash (g.grid_loc p)).getD [] ++ [(p, x)])) (g.grid_loc p) (((alookup g.hash (g.grid_loc p)).getD [] ++ [(p, x)]) ++ [(p, x)])) } :=
    add_eval_some { g with hash := (aset g.hash (g.grid_loc p) ((alookup g.hash (g.grid_loc p)).getD [] ++ [(p, x)])) } x p hin (alookup_aset_self _ _ _)
  have hrem3 : ({ g with hash := (aset (aset g.hash (g.grid_loc p) ((alookup g.hash (g.grid_loc p)).getD [] ++ [(p, x)])) (g.grid_loc p) (((alookup g.hash (g.grid_loc p)).getD [] ++ [(p, x)]) ++ [(p, x)])) } : Grid α).remove x p = .ok { g with hash := (aset (aset (aset g.hash (g.grid_loc p) ((alookup g.hash (g.grid_loc p)).getD [] ++ [(p, x)])) (g.grid_loc p) (((alookup g.hash (g.grid_loc p)).getD [] ++ [(p, x)]) ++ [(p, x)])) (g.grid_loc p) ((((alookup g.hash (g.grid_loc p)).getD [] ++ [(p, x)]) ++ [(p, x)]).erase (p, x))) } := by
    rw [remove_eval { g with hash := (aset (aset g.hash (g.grid_loc p) ((alookup g.hash (g.grid_loc p)).getD [] ++ [(p, x)])) (g.grid_loc p) (((alookup g.hash (g.grid_loc p)).getD [] ++ [(p, x)]) ++ [(p, x)])) } x p hin (((alookup g.hash (g.grid_loc p)).getD [] ++ [(p, x)]) ++ [(p, x)])
      (alookup_aset_self _ _ _) hmm2, if_neg hne]
    rfl
  have hc2 : pairCount (p, x) ({ g with hash := (aset (aset g.hash (g.grid_loc p) ((alookup g.hash (g.grid_loc p)).getD [] ++ [(p, x)])) (g.grid_loc p) (((alookup g.hash (g.grid_loc p)).getD [] ++ [(p, x)]) ++ [(p, x)])) } : Grid α).items = pairCount (p, x) g.items + 2 := by
    rw [pairCount_perm (items_add hadd2), pairCount_cons_self,
      pairCount_perm (items_add hadd1), pairCount_cons_self]
  have hc3 : pairCount (p, x) ({ g with hash := (aset (aset (aset g.hash (g.grid_loc p) ((alookup g.hash (g.grid_loc p)).getD [] ++ [(p, x)])) (g.grid_loc p) (((alookup g.hash (g.grid_loc p)).getD [] ++ [(p, x)]) ++ [(p, x)])) (g.grid_loc p) ((((alookup g.hash (g.grid_loc p)).getD [] ++ [(p, x)]) ++ [(p, x)]).erase (p, x))) } : Grid α).items = pairCount (p, x) g.items + 1 := by
    have h5 := @pairCount_perm α _ (p, x) _ _ (items_remove hrem3)
    rw [pairCount_cons_self] at h5
    omega
  have halook : alookup ({ g with hash := (aset (aset (aset g.hash (g.grid_loc p) ((alookup g.hash (g.grid_loc p)).getD [] ++ [(p, x)])) (g.grid_loc p) (((alookup g.hash (g.grid_loc p)).getD [] ++ [(p, x)]) ++ [(p, x)])) (g.grid_loc p) ((((alookup g.hash (g.grid_loc p)).getD [] ++ [(p, x)]) ++ [(p, x)]).erase (p, x))) } : Grid α).hash (({ g with hash := (aset (aset (aset g.hash (g.grid_loc p) ((alookup g.hash (g.grid_loc p)).getD [] ++ [(p, x)])) (g.grid_loc p) (((alookup g.hash (g.grid_loc p)).getD [] ++ [(p, x)]) ++ [(p, x)])) (g.grid_loc p) ((((alookup g.hash (g.grid_loc p)).getD [] ++ [(p, x)]) ++ [(p, x)]).erase (p, x))) } : Grid α).grid_loc p) =
      some ((((alookup g.hash (g.grid_loc p)).getD [] ++ [(p, x)]) ++ [(p, x)]).erase (p, x)) := alookup_aset_self _ _ _
  have hb3 : (p, x) ∈ (alookup ({ g with hash := (aset (aset (aset g.hash (g.grid_loc p) ((alookup g.hash (g.grid_loc p)).getD [] ++ [(p, x)])) (g.grid_loc p) (((alookup g.hash (g.grid_loc p)).getD [] ++ [(p, x)]) ++ [(p, x)])) (g.grid_loc p) ((((alookup g.hash (g.grid_loc p)).getD [] ++ [(p, x)]) ++ [(p, x)]).erase (p, x))) } : Grid α).hash (({ g with hash := (aset (aset (aset g.hash (g.grid_loc p) ((alookup g.hash (g.grid_loc p)).getD [] ++ [(p, x)])) (g.grid_loc p) (((alookup g.hash (g.grid_loc p)).getD [] ++ [(p, x)]) ++ [(p, x)])) (g.grid_loc p) ((((alookup g.hash (g.grid_loc p)).getD [] ++ [(p, x)]) ++ [(p, x)]).erase (p, x))) } : Grid α).grid_loc p)).getD [] := by
    rw [halook, Option.getD_some, List.erase_append_left _ hmm1]
    exact List.mem_append_right _ (List.mem_singleton.mpr rfl)
  exact ⟨_, _, _, hadd1, hadd2, hrem3, hc2, hc3,
    mem_bounds_of_stored { g with hash := (aset (aset (aset g.hash (g.grid_loc p) ((alookup g.hash (g.grid_loc p)).getD [] ++ [(p, x)])) (g.grid_loc p) (((alookup g.hash (g.grid_loc p)).getD [] ++ [(p, x)]) ++ [(p, x)])) (g.grid_loc p) ((((alookup g.hash (g.grid_loc p)).getD [] ++ [(p, x)]) ++ [(p, x)]).erase (p, x))) } hres hb3 r h1 h2 h3 h4,
    mem_proximity_of_stored { g with hash := (aset (aset (aset g.hash (g.grid_loc p) ((alookup g.hash (g.grid_loc p)).getD [] ++ [(p, x)])) (g.grid_loc p) (((alookup g.hash (g.grid_loc p)).getD [] ++ [(p, x)]) ++ [(p, x)])) (g.grid_loc p) ((((alookup g.hash (g.grid_loc p)).getD [] ++ [(p, x)]) ++ [(p, x)]).erase (p, x))) } hres hb3 qt rad hd⟩

theorem grid_duplicate_storage_witness :
    0 < egGrid2.res ∧ egGrid2.in_grid (3, 7) ∧
      ((2 : ℚ) ≤ 3 ∧ (3 : ℚ) ≤ 4 ∧ (6 : ℚ) ≤ 7 ∧ (7 : ℚ) ≤ 8) ∧ distLe (3, 7) (3, 7) 2 ∧
      (∃ g1 g2 g3, egGrid2.add 9 (3, 7) = .ok g1 ∧ g1.add 9 (3, 7) = .ok g2 ∧
        g2.remove 9 (3, 7) = .ok g3 ∧
        pairCount ((3, 7), 9) g2.items = pairCount ((3, 7), 9) egGrid2.items + 2 ∧
        pairCount ((3, 7), 9) g3.items = pairCount ((3, 7), 9) egGrid2.items + 1 ∧
        9 ∈ g3.bounds ⟨2, 4, 6, 8⟩ ∧ 9 ∈ g3.proximity (3, 7) 2) :=
  ⟨by decide, by decide, by decide, by decide,
    grid_duplicate_storage egGrid2 9 (3, 7) (by decide) (by decide) ⟨2, 4, 6, 8⟩
      (by decide) (by decide) (by decide) (by decide) (3, 7) 2 (by decide)⟩

/-! ### Claim C4 -/

theorem not_cornerFar_of_ge {g : Grid α} {pt : ℚ × ℚ} {s : ℚ}
    (h : g.cornerBound pt ≤ s) : ¬ g.cornerFar pt s := by
  have h1 : (1 : ℚ) ≤ s := le_trans (le_max_left _ _) h
  have hs : (0 : ℚ) ≤ s := by linarith
  have hss : s ≤ s ^ 2 := by nlinarith
  have hd1 : sqDist (g.x_range.1, g.y_range.1) pt ≤ s :=
    le_trans (le_trans (le_max_left _ _) (le_max_right _ _)) h
  have hd2 : sqDist (g.x_range.2, g.y_range.1) pt ≤ s :=
    le_trans (le_trans (le_trans (le_max_left _ _) (le_max_right _ _)) (le_max_right _ _)) h
  have hd3 : sqDist (g.x_range.1, g.y_range.2) pt ≤ s :=
    le_trans (le_trans (le_trans (le_trans (le_max_left _ _) (le_max_right _ _))
      (le_max_right _ _)) (le_max_right _ _)) h
  have hd4 : sqDist (g.x_range.2, g.y_range.2) pt ≤ s :=
    le_trans (le_trans (le_trans (le_trans (le_max_right _ _) (le_max_right _ _))
      (le_max_right _ _)) (le_max_right _ _)) h
  intro hcf
  rcases hcf with hc | hc | hc | hc
  · exact hc ⟨hs, by linarith⟩
  · exact hc ⟨hs, by linarith⟩
  · exact hc ⟨hs, by linarith⟩
  · exact hc ⟨hs, by linarith⟩

theorem searchLoop_exit [DecidableEq α] (g : Grid α) (pt : ℚ × ℚ) :
    ∀ (fuel : ℕ) (s : ℚ), 0 < s → g.cornerBound pt ≤ s * 2 ^ fuel →
      0 < g.searchLoop pt fuel s ∧
        ¬(g.proximity pt (g.searchLoop pt fuel s) = [] ∧
          g.cornerFar pt (g.searchLoop pt fuel s))
  | 0, s, hs, hB => by
    rw [pow_zero, mul_one] at hB
    rw [Grid.searchLoop]
    exact ⟨hs, fun hc => not_cornerFar_of_ge hB hc.2⟩
  | fuel + 1, s, hs, hB => by
    rw [Grid.searchLoop]
    by_cases hc : g.proximity pt s = [] ∧ g.cornerFar pt s
    · rw [if_pos hc]
      refine searchLoop_exit g pt fuel (2 * s) (by linarith) ?_
      calc g.cornerBound pt ≤ s * 2 ^ (fuel + 1) := hB
        _ = 2 * s * 2 ^ fuel := by ring
    · rw [if_neg hc]
      exact ⟨hs, hc⟩

theorem nearest_fuel_suff {g : Grid α} (hres : 0 < g.res) (pt : ℚ × ℚ) :
    g.cornerBound pt ≤ g.res * 2 ^ g.nearestFuel pt := by
  have h1 : (1 : ℚ) ≤ g.cornerBound pt := le_max_left _ _
  have hq : g.cornerBound pt / g.res ≤ (⌈g.cornerBound pt / g.res⌉ : ℚ) := Int.le_ceil _
  have hcpos : 0 < ⌈g.cornerBound pt / g.res⌉ :=
    Int.ceil_pos.mpr (div_pos (by linarith) hres)
  have hcast : ((g.nearestFuel pt : ℕ) : ℚ) = (⌈g.cornerBound pt / g.res⌉ : ℚ) := by
    unfold Grid.nearestFuel
    have h2 := Int.toNat_of_nonneg hcpos.le
    exact_mod_cast congrArg (fun z : ℤ => (z : ℚ)) h2
  have hfle : ((g.nearestFuel pt : ℕ) : ℚ) ≤ (2 : ℚ) ^ g.nearestFuel pt := by
    have h2 : (g.nearestFuel pt : ℕ) < 2 ^ g.nearestFuel pt := Nat.lt_two_pow _
    exact_mod_cast h2.le
  calc g.cornerBound pt = g.res * (g.cornerBound pt / g.res) := by field_simp
    _ ≤ g.res * (⌈g.cornerBound pt / g.res⌉ : ℚ) := mul_le_mul_of_nonneg_left hq hres.le
    _ = g.res * ((g.nearestFuel pt : ℕ) : ℚ) := by rw [hcast]
    _ ≤ g.res * 2 ^ g.nearestFuel pt := mul_le_mul_of_nonneg_left hfle hres.le

theorem in_rect_box {g : Grid α} {pt : ℚ × ℚ} {s : ℚ} (hnc : ¬ g.cornerFar pt s)
    {q : ℚ × ℚ} (hq : g.in_grid q) :
    pt.1 - s ≤ q.1 ∧ q.1 ≤ pt.1 + s ∧ pt.2 - s ≤ q.2 ∧ q.2 ≤ pt.2 + s := by
  rw [Grid.cornerFar, not_or, not_or, not_or] at hnc
  obtain ⟨hc1, hc2, hc3, hc4⟩ := hnc
  rw [distGt, not_not] at hc1 hc2 hc3 hc4
  obtain ⟨a1, a2, a3, a4⟩ := coord_bounds_of_distLe hc1
  obtain ⟨b1, b2, b3, b4⟩ := coord_bounds_of_distLe hc4
  dsimp only at a1 a2 a3 a4 b1 b2 b3 b4
  obtain ⟨hg1, hg2, hg3, hg4⟩ := hq
  exact ⟨by linarith, by linarith, by linarith, by linarith⟩

theorem sq_far_of_outside {pt q : ℚ × ℚ} {s : ℚ} (hs : 0 ≤ s)
    (h : ¬(pt.1 - s ≤ q.1 ∧ q.1 ≤ pt.1 + s ∧ pt.2 - s ≤ q.2 ∧ q.2 ≤ pt.2 + s)) :
    s ^ 2 < sqDist pt q := by
  by_contra hc
  push_neg at hc
  exact h (coord_bounds_of_distLe ⟨hs, hc⟩)

/-- C4: for a well-formed grid with positive resolution, `nearest pt` returns
`none` exactly when the grid stores no items; otherwise it returns an item
stored at some point whose Euclidean distance to `pt` is at most the distance
of every stored item to `pt`. -/
theorem grid_nearest_correct [DecidableEq α] [LinearOrder α] (g : Grid α)
    (hwf : g.WF) (hres : 0 < g.res) (pt : ℚ × ℚ) :
    (g.nearest pt = none ↔ g.items = []) ∧
      (∀ x, g.nearest pt = some x → ∃ p', (p', x) ∈ g.items ∧
        ∀ pr ∈ g.items, get_points_dist pt p' ≤ get_points_dist pt pr.1) := by
  obtain ⟨hSpos, hexit⟩ := searchLoop_exit g pt (g.nearestFuel pt) g.res hres
    (nearest_fuel_suff hres pt)
  obtain ⟨S, hS⟩ : ∃ S, g.searchLoop pt (g.nearestFuel pt) g.res = S := ⟨_, rfl⟩
  rw [hS] at hSpos hexit
  unfold Grid.nearest
  rw [hS]
  rcases hsel : selMin (g.scanPairs pt S) with _ | m
  · have hscan : g.scanPairs pt S = [] := selMin_eq_none.mp hsel
    have hitems : g.items = [] := by
      by_contra hne
      obtain ⟨pr, hpr⟩ := List.exists_mem_of_ne_nil _ hne
      obtain ⟨hb, hing⟩ := stored_bucket_of_mem_items hwf hpr
      rcases Classical.em (g.proximity pt S = []) with hpe | hpe
      · have hnc : ¬ g.cornerFar pt S := fun hcf => hexit ⟨hpe, hcf⟩
        obtain ⟨c1, c2, c3, c4⟩ := in_rect_box hnc hing
        have hcon := mem_scanPairs_of_stored g hres hb pt c1 c2 c3 c4
        rw [hscan] at hcon
        cases hcon
      · obtain ⟨y, hy⟩ := List.exists_mem_of_ne_nil _ hpe
        obtain ⟨pry, hpry, hdy, _⟩ := proximity_sound hy
        obtain ⟨hby, _⟩ := stored_bucket_of_mem_items hwf hpry
        obtain ⟨c1, c2, c3, c4⟩ := coord_bounds_of_distLe hdy
        have hcon := mem_scanPairs_of_stored g hres hby pt c1 c2 c3 c4
        rw [hscan] at hcon
        cases hcon
    refine ⟨⟨fun _ => hitems, fun _ => rfl⟩, ?_⟩
    intro x hx
    cases hx
  · have hmem := selMin_mem hsel
    obtain ⟨e, he, hme⟩ := scanPairs_sound hmem
    subst hme
    have hitems_ne : g.items ≠ [] := fun h0 => by rw [h0] at he; cases he
    refine ⟨⟨(fun h => by cases h), fun h0 => absurd h0 hitems_ne⟩, ?_⟩
    intro x hx
    have hxm : e.2 = x := Option.some.inj hx
    subst hxm
    refine ⟨e.1, he, ?_⟩
    intro pr hpr
    rw [get_points_dist_le_dist_iff]
    obtain ⟨hbpr, hinpr⟩ := stored_bucket_of_mem_items hwf hpr
    by_cases hbox : pt.1 - S ≤ pr.1.1 ∧ pr.1.1 ≤ pt.1 + S ∧
        pt.2 - S ≤ pr.1.2 ∧ pr.1.2 ≤ pt.2 + S
    · have hprmem := mem_scanPairs_of_stored g hres hbpr pt hbox.1 hbox.2.1
        hbox.2.2.1 hbox.2.2.2
      have hnl := selMin_not_lt hsel _ hprmem
      simp only [pairLt, not_or] at hnl
      exact not_lt.mp hnl.1
    · have hfar : S ^ 2 < sqDist pt pr.1 := sq_far_of_outside hSpos.le hbox
      rcases Classical.em (g.cornerFar pt S) with hcf | hcf
      · have hpe : g.proximity pt S ≠ [] := fun h0 => hexit ⟨h0, hcf⟩
        obtain ⟨y, hy⟩ := List.exists_mem_of_ne_nil _ hpe
        obtain ⟨pry, hpry, hdy, _⟩ := proximity_sound hy
        obtain ⟨hby, _⟩ := stored_bucket_of_mem_items hwf hpry
        obtain ⟨c1, c2, c3, c4⟩ := coord_bounds_of_distLe hdy
        have hymem := mem_scanPairs_of_stored g hres hby pt c1 c2 c3 c4
        have hnl := selMin_not_lt hsel _ hymem
        simp only [pairLt, not_or] at hnl
        have h6 : sqDist pt e.1 ≤ sqDist pt pry.1 := not_lt.mp hnl.1
        have h7 : sqDist pt pry.1 ≤ S ^ 2 := hdy.2
        linarith
      · obtain ⟨c1, c2, c3, c4⟩ := in_rect_box hcf hinpr
        exact absurd ⟨c1, c2, c3, c4⟩ hbox

theorem grid_nearest_correct_witness :
    egGrid2.WF ∧ 0 < egGrid2.res ∧
      ((egGrid2.nearest (2, 1) = none ↔ egGrid2.items = []) ∧
        (∀ x, egGrid2.nearest (2, 1) = some x → ∃ p', (p', x) ∈ egGrid2.items ∧
          ∀ pr ∈ egGrid2.items, get_points_dist (2, 1) p' ≤ get_points_dist (2, 1) pr.1)) :=
  ⟨by decide, by decide, grid_nearest_correct egGrid2 (by decide) (by decide) (2, 1)⟩
